import Mathlib

/-!
Verification development for the dbcli skills deployment script
(`deploy-skills.py`).  The script is modelled by a shallow embedding: the
filesystem is a finite table of regular files (path ↦ byte content, bytes
modelled as characters) together with a set of directories, and every
filesystem-mutating function of the script becomes a pure function on that
state.  Paths are lists of components; relative paths of the script are
anchored at an explicit `cwd` argument.  Console printing, interactive
prompt I/O (modelled as a boolean answer), subprocess invocation, binary
discovery (`find_executable`) and PATH editing are external collaborators
per the design document and are not modelled; neither are the transient
OS errors beyond the explicit retry logic of `rmtree_force`, which is
modelled by an explicit count of leading failing attempts.
-/

namespace DbCli

/-- File content: the character sequence of a file. -/
abbrev Content := List Char

/-- A filesystem path, as its list of components from the root. -/
abbrev FsPath := List String

/-- First-match association-list lookup of a file table. -/
def lookupF (p : FsPath) : List (FsPath × Content) → Option Content
  | [] => none
  | (q, c) :: rest => if q = p then some c else lookupF p rest

/-- Write `c` at `p`: replace the first binding of `p`, or append a new one. -/
def setFile (files : List (FsPath × Content)) (p : FsPath) (c : Content) :
    List (FsPath × Content) :=
  match files with
  | [] => [(p, c)]
  | (q, d) :: rest => if q = p then (p, c) :: rest else (q, d) :: setFile rest p c

/-- Boolean membership of a path in a directory list. -/
def memPath (p : FsPath) : List FsPath → Bool
  | [] => false
  | q :: rest => if q = p then true else memPath p rest

/-- `beginsWith pre l` is true when `l` starts with the segment `pre`. -/
def beginsWith [DecidableEq α] : List α → List α → Bool
  | [], _ => true
  | _ :: _, [] => false
  | a :: as, b :: bs => if a = b then beginsWith as bs else false

/-- Remove a leading segment, or fail. -/
def stripInit [DecidableEq α] (pre l : List α) : Option (List α) :=
  if beginsWith pre l then some (l.drop pre.length) else none

/-- Python's substring test `needle in hay` on character lists. -/
def containsSub (needle hay : List Char) : Bool :=
  match hay with
  | [] => needle.isEmpty
  | _ :: rest => beginsWith needle hay || containsSub needle rest

/-- The filesystem: a table of regular files and the set of directories. -/
structure FS where
  files : List (FsPath × Content)
  dirs : List FsPath
deriving DecidableEq

/-- A regular file exists at `p`. -/
def isFile (fs : FS) (p : FsPath) : Bool := (lookupF p fs.files).isSome

/-- A directory exists at `p`. -/
def isDir (fs : FS) (p : FsPath) : Bool := memPath p fs.dirs

/-- `Path.exists()`: a file or a directory is present at `p`. -/
def pathExists (fs : FS) (p : FsPath) : Bool := isFile fs p || isDir fs p

/-- Add a directory if absent. -/
def addDir (dirs : List FsPath) (p : FsPath) : List FsPath :=
  if memPath p dirs then dirs else dirs ++ [p]

/-- All prefixes of a path, from `[]` up to the path itself. -/
def initsOf (p : FsPath) : List FsPath :=
  (List.range (p.length + 1)).map (fun k => p.take k)

/-- `p.mkdir(parents=True, exist_ok=True)`: create `p` and all ancestors. -/
def mkdirParents (fs : FS) (p : FsPath) : FS :=
  { fs with dirs := (initsOf p).foldl addDir fs.dirs }

/-- `shutil.rmtree p`: drop every file and directory at or below `p`. -/
def rmtree (fs : FS) (p : FsPath) : FS :=
  { files := fs.files.filter (fun pc => !(beginsWith p pc.1)),
    dirs := fs.dirs.filter (fun d => !(beginsWith p d)) }

/-- The `rmtree_force` helper: `for attempt in range(3)` around `shutil.rmtree`,
sleeping and retrying on `PermissionError` and re-raising on the third failing
attempt.  `failures` models how many leading attempts raise a transient
`PermissionError`; attempt number `failures` (0-based) is the first to succeed.
The loop succeeds exactly when one of attempts 0, 1, 2 succeeds. -/
def rmtree_force (fs : FS) (p : FsPath) (failures : Nat) : Except Unit FS :=
  if failures ≤ 2 then Except.ok (rmtree fs p) else Except.error ()

/-- `shutil.copy2 src dst` (content copy; call sites guard that `src` exists). -/
def copy2 (fs : FS) (src dst : FsPath) : FS :=
  match lookupF src fs.files with
  | some c => { fs with files := setFile fs.files dst c }
  | none => fs

/-- `shutil.copytree src dst`: replicate every file and directory of the
subtree rooted at the directory `src` below `dst`, overwriting files already
present (the semantics at all call sites: either `dst` was just removed, or
`dirs_exist_ok=True` is passed). -/
def copytree (fs : FS) (src dst : FsPath) : FS :=
  let subFiles := fs.files.filterMap (fun pc =>
    match stripInit src pc.1 with
    | some rel => if rel.isEmpty then none else some (rel, pc.2)
    | none => none)
  let subDirs := fs.dirs.filterMap (fun d => stripInit src d)
  { files := subFiles.foldl (fun acc rc => setFile acc (dst ++ rc.1) rc.2) fs.files,
    dirs := subDirs.foldl (fun acc rel => addDir acc (dst ++ rel)) fs.dirs }

/-- The literal `marker = "DBCLI_RULES_START"` scanned for in host files. -/
def marker : Content := "DBCLI_RULES_START".data

/-- Final path component (`Path.name`), or `""` for the empty path. -/
def pathFileName (p : FsPath) : String := p.getLast?.getD ""

/-- Index of the last occurrence of `c` (`str.rfind`). -/
def rfindChar (c : Char) (cs : List Char) : Option Nat :=
  (List.range cs.length).foldl (fun acc i => if cs[i]? = some c then some i else acc) none

/-- `pathlib.PurePath.suffix` of a file name: the part from the last dot when
that dot is strictly inside the name (`0 < i < len(name) - 1`). -/
def nameSuffix (name : List Char) : List Char :=
  match rfindChar '.' name with
  | some i => if 0 < i ∧ i < name.length - 1 then name.drop i else []
  | none => []

/-- ASCII lowering of a character list (Python `str.lower` on ASCII data). -/
def toLowerL (cs : List Char) : List Char := cs.map Char.toLower

/-- `path.suffix.lower() in {".yml", ".yaml"}`. -/
def isYamlSuffix (p : FsPath) : Bool :=
  let sfx := toLowerL (nameSuffix (pathFileName p).data)
  sfx = ".yml".data ∨ sfx = ".yaml".data

/-- Accumulator pass of `str.splitlines` over `\r\n`, `\r` and `\n`. -/
def splitLinesCore : List Char → List Char → List (List Char)
  | [], acc => [acc.reverse]
  | '\r' :: '\n' :: rest, acc => acc.reverse :: splitLinesCore rest []
  | '\r' :: rest, acc => acc.reverse :: splitLinesCore rest []
  | '\n' :: rest, acc => acc.reverse :: splitLinesCore rest []
  | c :: rest, acc => splitLinesCore rest (c :: acc)

/-- Python `str.splitlines()`: no trailing empty piece for a trailing
terminator, and `[]` for the empty string. -/
def splitLinesPy (s : List Char) : List (List Char) :=
  let r := splitLinesCore s []
  if r.getLast? = some [] then r.dropLast else r

/-- `"\n".join`. -/
def joinLines : List (List Char) → List Char
  | [] => []
  | [l] => l
  | l :: rest => l ++ '\n' :: joinLines rest

/-- The sentinel-wrapped block appended by `append_dbcli_rules_to_file`:
line-comment style for YAML suffixes, HTML-comment style otherwise. -/
def rulesBlockFor (p : FsPath) (rulesText : Content) : Content :=
  if isYamlSuffix p then
    let commented := joinLines ((splitLinesPy rulesText).map (fun l => "# ".data ++ l))
    "\n\n# DBCLI_RULES_START\n".data ++ commented ++ "\n# DBCLI_RULES_END\n".data
  else
    "\n\n<!-- DBCLI_RULES_START -->\n".data ++ rulesText ++ "\n<!-- DBCLI_RULES_END -->\n".data

/-- `append_dbcli_rules_to_file(path, rules_text)`: no-op on empty text, skip
when the opening marker already occurs in the host file, otherwise create the
parent directories and append the wrapped block. -/
def append_dbcli_rules_to_file (fs : FS) (p : FsPath) (rulesText : Content) : FS :=
  if rulesText.isEmpty then fs
  else
    let blocked := match lookupF p fs.files with
      | some existing => containsSub marker existing
      | none => false
    if blocked then fs
    else
      let fs1 := mkdirParents fs p.dropLast
      let newContent := (lookupF p fs.files).getD [] ++ rulesBlockFor p rulesText
      { fs1 with files := setFile fs1.files p newContent }

/-- The opening sentinel line of the rules region in `INTEGRATION.md`. -/
def startSentinel : Content := "<!-- DBCLI_RULES_START -->".data

/-- The closing sentinel line of the rules region in `INTEGRATION.md`. -/
def endSentinel : Content := "<!-- DBCLI_RULES_END -->".data

/-- Remainder of `hay` after the first occurrence of `needle`, if any. -/
def dropAfterFirst (needle hay : List Char) : Option (List Char) :=
  match hay with
  | [] => if needle.isEmpty then some [] else none
  | _ :: rest =>
    if beginsWith needle hay then some (hay.drop needle.length)
    else dropAfterFirst needle rest

/-- Part of `hay` strictly before the first occurrence of `needle`, if any. -/
def takeBeforeFirst (needle hay : List Char) : Option (List Char) :=
  match hay with
  | [] => if needle.isEmpty then some [] else none
  | c :: rest =>
    if beginsWith needle hay then some []
    else (takeBeforeFirst needle rest).map (fun t => c :: t)

/-- Python regex whitespace class `\s` on ASCII data. -/
def isPySpace (c : Char) : Bool :=
  c = ' ' || c = '\t' || c = '\n' || c = '\r' || c = '\x0b' || c = '\x0c'

/-- `str.strip()` of surrounding whitespace. -/
def stripWs (cs : List Char) : Content :=
  ((cs.dropWhile isPySpace).reverse.dropWhile isPySpace).reverse

/-- `get_dbcli_rules_block()`: the stripped text of `INTEGRATION.md` between
the first opening sentinel and the next closing sentinel after it (the lazy
regex `START \s*([\s\S]*?)\s* END` followed by `.strip()`), or empty when the
file or the delimited region is absent. -/
def get_dbcli_rules_block (fs : FS) (src : FsPath) : Content :=
  match lookupF (src ++ ["INTEGRATION.md"]) fs.files with
  | none => []
  | some content =>
    match dropAfterFirst startSentinel content with
    | none => []
    | some rest =>
      match takeBeforeFirst endSentinel rest with
      | none => []
      | some mid => stripWs mid

/-- The default host files receiving the rules fragment, relative to the
working directory. -/
def rule_files (cwd : FsPath) : List FsPath :=
  [cwd ++ ["CLAUDE.md"], cwd ++ ["Claude.md"], cwd ++ ["AGENTS.md"], cwd ++ ["Agents.md"],
   cwd ++ [".cursorrules"], cwd ++ [".vscode", "context.md"],
   cwd ++ [".gemini", "skills.yaml"], cwd ++ [".gemini", "skills.yml"]]

/-- `append_dbcli_rules(include_copilot)`: extract the fragment once and inject
it into every host file; on an empty fragment nothing is touched. -/
def append_dbcli_rules (fs : FS) (cwd src : FsPath) (includeCopilot : Bool) : FS :=
  let rules := get_dbcli_rules_block fs src
  if rules.isEmpty then fs
  else
    let fs1 := (rule_files cwd).foldl (fun acc p => append_dbcli_rules_to_file acc p rules) fs
    if includeCopilot then
      append_dbcli_rules_to_file fs1 (cwd ++ [".github", "copilot-instructions.md"]) rules
    else fs1

/-- Candidate qualification inside `resolve_skills_source`: the integration
guide and the canary bundle manifest both exist below the candidate. -/
def qualifiesAsSource (fs : FS) (cand : FsPath) : Bool :=
  pathExists fs (cand ++ ["INTEGRATION.md"]) && pathExists fs (cand ++ ["dbcli-query", "SKILL.md"])

/-- `resolve_skills_source()`: probe the script directory, the user-profile
tools path and the working directory in that order; `[]` models the
`Path()` not-found sentinel. -/
def resolve_skills_source (fs : FS) (scriptDir home cwd : FsPath) : FsPath :=
  let scriptSkills := scriptDir ++ ["skills"]
  if qualifiesAsSource fs scriptSkills then scriptSkills
  else
    let toolsSkills := home ++ ["tools", "dbcli", "skills"]
    if qualifiesAsSource fs toolsSkills then toolsSkills
    else
      let cwdSkills := cwd ++ ["skills"]
      if qualifiesAsSource fs cwdSkills then cwdSkills
      else []

/-- The name of `d` as an immediate child of `p`, when `d = p ++ [n]`. -/
def childNameOf (p d : FsPath) : Option String :=
  match stripInit p d with
  | some [n] => some n
  | _ => none

/-- Insertion into a `≤`-sorted list of names. -/
def insertSorted (x : String) : List String → List String
  | [] => [x]
  | y :: rest => if x ≤ y then x :: y :: rest else y :: insertSorted x rest

/-- Python `sorted` on strings (insertion sort; code-point lexicographic). -/
def sortNames (l : List String) : List String := l.foldr insertSorted []

/-- `get_claude_skill_names(skills_source)`: the sorted names of the child
directories that contain a `SKILL.md` entry. -/
def get_claude_skill_names (fs : FS) (src : FsPath) : List String :=
  sortNames ((fs.dirs.filterMap (childNameOf src)).filter
    (fun n => pathExists fs (src ++ [n, "SKILL.md"])))

/-- ASCII `str.lower()` on strings. -/
def toLowerS (s : String) : String := String.mk (s.data.map Char.toLower)

/-- The regular files strictly below `root`, as (relative path, content). -/
def filesUnder (fs : FS) (root : FsPath) : List (FsPath × Content) :=
  fs.files.filterMap (fun pc =>
    match stripInit root pc.1 with
    | some rel => if rel.isEmpty then none else some (rel, pc.2)
    | none => none)

/-- Rename a relative path's base name to the canonical `Skill.md` when it
matches the manifest name case-insensitively. -/
def renameManifest (rel : FsPath) : FsPath :=
  match rel.getLast? with
  | some n => if toLowerS n = "skill.md" then rel.dropLast ++ ["Skill.md"] else rel
  | none => rel

/-- An archive entry name: POSIX-joined relative path rooted at the bundle. -/
def entryName (skillName : String) (rel : FsPath) : String :=
  skillName ++ "/" ++ String.intercalate "/" (renameManifest rel)

/-- Check for an immediate child regular file named `skill.md` up to case
(the staged-copy warning probe: `p.is_file() and p.name.lower() == "skill.md"`). -/
def hasManifestChild (fs : FS) (dir : FsPath) : Bool :=
  fs.files.any (fun pc =>
    match childNameOf dir pc.1 with
    | some n => toLowerS n = "skill.md"
    | none => false)

/-- The produced archive: the warning flag and the ordered entry list. -/
structure PkgArchive where
  warned : Bool
  entries : List (String × Content)
deriving DecidableEq

/-- `package_claude_skill_zip(skill_name, skills_source, out_dir)`.  `none`
models the raised error: the explicit `FileNotFoundError` when the bundle
directory is absent, or the staging `copytree` failure when the path is not a
directory.  Staging into the temporary directory copies the bundle verbatim,
so entries are drawn directly from the source subtree; the compressed
container bytes written to the output directory are represented by the entry
list itself.  The first entry is the explicit empty directory entry
`f"{skill_name}/"`; each regular file follows under its bundle-rooted POSIX
name with the manifest-name casing correction. -/
def package_claude_skill_zip (fs : FS) (skillName : String) (src : FsPath) :
    Option PkgArchive :=
  let srcDir := src ++ [skillName]
  if !(pathExists fs srcDir) then none
  else if !(isDir fs srcDir) then none
  else
    let warned := !(hasManifestChild fs srcDir)
    let fileEntries := (filesUnder fs srcDir).map (fun rc => (entryName skillName rc.1, rc.2))
    some { warned := warned, entries := (skillName ++ "/", ([] : Content)) :: fileEntries }

/-- The fixed item list of the Claude deployment. -/
def skill_items : List String :=
  ["README.md", "INTEGRATION.md", "CONNECTION_STRINGS.md",
   "dbcli-query", "dbcli-exec", "dbcli-db-ddl", "dbcli-tables", "dbcli-export",
   "dbcli-view", "dbcli-index", "dbcli-procedure", "dbcli-interactive"]

/-- The fixed item list of the Codex deployment. -/
def codex_skill_items : List String :=
  ["dbcli-query", "dbcli-exec", "dbcli-db-ddl", "dbcli-tables",
   "dbcli-view", "dbcli-index", "dbcli-procedure",
   "dbcli-export", "dbcli-interactive",
   "README.md", "INTEGRATION.md", "CONNECTION_STRINGS.md"]

/-- One iteration of the skills copy loop (Claude and Codex user scope): a
directory item replaces any pre-existing destination subtree; a file item is
copied with overwrite; an absent item is silently skipped.  (The successful
effect of `rmtree_force` on the pre-existing subtree equals `rmtree`.) -/
def copySkillItem (src dst : FsPath) (fs : FS) (item : String) : FS :=
  let sourcePath := src ++ [item]
  if pathExists fs sourcePath then
    let destPath := dst ++ [item]
    if isDir fs sourcePath then
      let fs1 := if pathExists fs destPath then rmtree fs destPath else fs
      copytree fs1 sourcePath destPath
    else
      copy2 fs sourcePath destPath
  else fs

/-- One iteration of the Codex repo-scope copy loop: directories are merged
with `dirs_exist_ok=True` (no pre-removal), files copied with overwrite. -/
def copySkillItemMerge (src dst : FsPath) (fs : FS) (item : String) : FS :=
  let sourcePath := src ++ [item]
  if pathExists fs sourcePath then
    if isDir fs sourcePath then copytree fs sourcePath (dst ++ [item])
    else copy2 fs sourcePath (dst ++ [item])
  else fs

/-- Outcome of the Claude target. -/
inductive ClaudeOutcome
  | skippedByUser
  | deployed
deriving DecidableEq

/-- `deploy_claude_skills(claude_dir, force, copy_exe=False)` (the only call in
`main` passes `copy_exe=False`, so the external executable-discovery branch is
not entered).  `confirmYes` models the operator's overwrite answer being
exactly `y` after strip/lower. -/
def deploy_claude_skills (fs : FS) (claudeDir cwd src : FsPath) (force confirmYes : Bool) :
    FS × ClaudeOutcome :=
  let dbcliDir := claudeDir ++ ["skills", "dbcli"]
  let skillsDir := dbcliDir ++ ["skills"]
  if pathExists fs dbcliDir && !force && !confirmYes then (fs, ClaudeOutcome.skippedByUser)
  else
    let fs1 := mkdirParents fs dbcliDir
    let fs2 := if force && pathExists fs1 skillsDir then rmtree fs1 skillsDir else fs1
    let fs3 := mkdirParents fs2 skillsDir
    let fs4 := skill_items.foldl (copySkillItem src skillsDir) fs3
    (append_dbcli_rules fs4 cwd src false, ClaudeOutcome.deployed)

/-- Outcome of the workspace target. -/
inductive WorkspaceOutcome
  | selfSkip
  | noSource
  | deployed
deriving DecidableEq

/-- The immediate child names of `p` (`iterdir`), directories then files. -/
def childNames (fs : FS) (p : FsPath) : List String :=
  (fs.dirs.filterMap (childNameOf p)) ++ (fs.files.filterMap (fun pc => childNameOf p pc.1))

/-- One iteration of the workspace copy loop over `source_dir.iterdir()`. -/
def copyChild (src dst : FsPath) (fs : FS) (n : String) : FS :=
  if isDir fs (src ++ [n]) then
    let fs1 := if pathExists fs (dst ++ [n]) then rmtree fs (dst ++ [n]) else fs
    copytree fs1 (src ++ [n]) (dst ++ [n])
  else copy2 fs (src ++ [n]) (dst ++ [n])

/-- `deploy_workspace_skills(force)`: self-deployment detection via
`Path("skills/dbcli-query").exists()`, an optional force-clean, destination
creation, a source presence check, then a full copy of the source children. -/
def deploy_workspace_skills (fs : FS) (cwd src : FsPath) (force : Bool) :
    FS × WorkspaceOutcome :=
  let dest := cwd ++ ["skills", "dbcli"]
  if pathExists fs (cwd ++ ["skills", "dbcli-query"]) then (fs, WorkspaceOutcome.selfSkip)
  else
    let fs1 := if force && pathExists fs dest then rmtree fs dest else fs
    let fs2 := mkdirParents fs1 dest
    if !(pathExists fs2 src) then (fs2, WorkspaceOutcome.noSource)
    else
      let names := childNames fs2 src
      (names.foldl (copyChild src dest) fs2, WorkspaceOutcome.deployed)

/-- Outcome of the Codex user scope. -/
inductive CodexUser
  | userDeployed
  | userSkippedExisting
deriving DecidableEq

/-- Outcome of the Codex repo scope. -/
inductive CodexRepo
  | repoDeployed
  | repoSkippedExisting
  | repoNoMarker
  | repoGlobalOnly
deriving DecidableEq

/-- The USER-scope section of `deploy_codex_skills`: optional force-clean of
`~/.codex/skills/dbcli`, then (when absent or forced) recreate and populate
its nested skills directory. -/
def codex_user_scope (fs : FS) (home src : FsPath) (force : Bool) : FS × CodexUser :=
  let userDir := home ++ [".codex", "skills", "dbcli"]
  let userSkills := userDir ++ ["skills"]
  let fs1 := if pathExists fs userDir && force then rmtree fs userDir else fs
  if !(pathExists fs1 userDir) || force then
    let a := mkdirParents fs1 userDir
    let b := mkdirParents a userSkills
    (codex_skill_items.foldl (copySkillItem src userSkills) b, CodexUser.userDeployed)
  else (fs1, CodexUser.userSkippedExisting)

/-- `deploy_codex_skills(force, copy_exe=False, global_only)` (the only call in
`main` passes `copy_exe=False`).  User scope first (`~/.codex/skills/dbcli`),
then — unless `global_only`, which returns immediately — the repo scope
(`./.codex/skills/dbcli`) only when a `.git` marker is present; a populated
repo destination without `force` returns early (skipping even the rules
append); otherwise the repo scope is deployed with `dirs_exist_ok=True`
merges, and the rules fragment is appended at the end. -/
def deploy_codex_skills (fs : FS) (home cwd src : FsPath) (force globalOnly : Bool) :
    FS × CodexUser × CodexRepo :=
  let userStep := codex_user_scope fs home src force
  let fs2 := userStep.1
  let uOut := userStep.2
  if globalOnly then (fs2, uOut, CodexRepo.repoGlobalOnly)
  else if pathExists fs2 (cwd ++ [".git"]) then
    let repoDir := cwd ++ [".codex", "skills", "dbcli"]
    let repoSkills := repoDir ++ ["skills"]
    if pathExists fs2 repoDir && !force then (fs2, uOut, CodexRepo.repoSkippedExisting)
    else
      let fs3 := if pathExists fs2 repoDir && force then rmtree fs2 repoDir else fs2
      let fs4 := mkdirParents fs3 repoDir
      let fs5 := mkdirParents fs4 repoSkills
      let fs6 := codex_skill_items.foldl (copySkillItemMerge src repoSkills) fs5
      (append_dbcli_rules fs6 cwd src false, uOut, CodexRepo.repoDeployed)
  else (append_dbcli_rules fs2 cwd src false, uOut, CodexRepo.repoNoMarker)

/-- The CLI target selector. -/
inductive Target
  | claude
  | copilot
  | codex
  | workspace
  | all
deriving DecidableEq

/-- The parsed CLI arguments that decide the exit code (`--install-scripts`,
an external install step per the design document's scope, is not modelled). -/
structure Args where
  target : Target
  force : Bool
  codexGlobalOnly : Bool
  packageSkills : List String
  packageAll : Bool
deriving DecidableEq

/-- The path whose existence `main` actually checks after resolution:
`(skills_source / "INTEGRATION.md")`, where the `Path()` sentinel denotes the
current directory (a `Path` object is always truthy, so the
`not skills_source` disjunct of the source check never fires). -/
def sourceCheckPath (resolved cwd : FsPath) : FsPath :=
  (if resolved.isEmpty then cwd else resolved) ++ ["INTEGRATION.md"]

/-- The effective `SKILLS_SOURCE` set by `main` (sentinel = `Path('.')`). -/
def effectiveSource (resolved cwd : FsPath) : FsPath :=
  if resolved.isEmpty then cwd else resolved

/-- The `skill_names` selection of the packaging mode: every valid bundle
under the source for `--package-claude-all`, else the explicitly named ones. -/
def selectedNames (fs : FS) (scriptDir home cwd : FsPath) (args : Args) : List String :=
  if args.packageAll then
    get_claude_skill_names fs (effectiveSource (resolve_skills_source fs scriptDir home cwd) cwd)
  else args.packageSkills

/-- The process exit code of `main` on the modelled runs (no transient OS
errors, no `--install-scripts`): the `--codex-global-only` target conflict,
then source resolution, then the packaging-only mode with its flag conflict,
empty selection and per-bundle outcomes; deployment-mode runs always exit 0
(deploy functions return normally; skips are not errors, and the final
`verify_dbcli` probe is informational only). -/
def mainExitCode (fs : FS) (scriptDir home cwd : FsPath) (args : Args) : Nat :=
  if args.codexGlobalOnly && !(args.target = Target.codex) then 1
  else
    let resolved := resolve_skills_source fs scriptDir home cwd
    if !(pathExists fs (sourceCheckPath resolved cwd)) then 1
    else
      let srcEff := effectiveSource resolved cwd
      if args.packageAll || !args.packageSkills.isEmpty then
        if args.packageAll && !args.packageSkills.isEmpty then 1
        else
          let names := selectedNames fs scriptDir home cwd args
          if names.isEmpty then 1
          else if names.all (fun n => (package_claude_skill_zip fs n srcEff).isSome) then 0
          else 1
      else 0

/-- A concrete state for the C6 counterexample: the workspace destination
`skills/dbcli` exists and is non-empty, and a distinct valid source
directory `srcsk` holds a `README.md` not yet present at the destination. -/
def fsWs : FS :=
  { files := [(["skills", "dbcli", "old.md"], "old".data), (["srcsk", "README.md"], "new".data)],
    dirs := [[], ["skills"], ["skills", "dbcli"], ["srcsk"]] }

/-- A concrete bundle for the C4 witness: a lower-cased manifest plus a
nested auxiliary file. -/
def fsPkg : FS :=
  { files := [(["s", "a", "skill.MD"], "m".data), (["s", "a", "ref", "doc.md"], "d".data)],
    dirs := [[], ["s"], ["s", "a"], ["s", "a", "ref"]] }

/-- A concrete state for the C6 witness: an existing Claude destination. -/
def fsCl : FS :=
  { files := [([".claude", "skills", "dbcli", "skills", "README.md"], "r".data)],
    dirs := [[], [".claude"], [".claude", "skills"], [".claude", "skills", "dbcli"],
             [".claude", "skills", "dbcli", "skills"]] }

/-- A concrete state for the C3 counterexample: bundle `a` has its manifest,
bundle `b` exists as a directory but lacks `SKILL.md`. -/
def fsAB : FS :=
  { files := [(["s", "a", "SKILL.md"], "m".data)], dirs := [[], ["s"], ["s", "a"], ["s", "b"]] }

/-- A concrete state with a valid source under the script directory, used by
the C7 counterexample. -/
def fsMain : FS :=
  { files := [(["sd", "skills", "INTEGRATION.md"], "i".data),
              (["sd", "skills", "dbcli-query", "SKILL.md"], "m".data)],
    dirs := [[], ["sd"], ["sd", "skills"], ["sd", "skills", "dbcli-query"]] }

/-- The file table has no duplicate path keys (true of a real filesystem). -/
def keysNodup (l : List (FsPath × Content)) : Prop := (l.map Prod.fst).Nodup

/-- Incomparability of two paths: neither is a prefix of the other, so their
subtrees are disjoint. -/
def Incomp (a b : FsPath) : Prop := beginsWith a b = false ∧ beginsWith b a = false

/-- Filesystem well-formedness: no duplicate file paths, and every proper
prefix of a file path is a directory. -/
def WF (fs : FS) : Prop :=
  keysNodup fs.files ∧
  ∀ pc ∈ fs.files, ∀ k, k < pc.1.length → memPath (pc.1.take k) fs.dirs = true

/-- The content the deployment copy loop leaves at `dst/item/rel`, as a
function of the source subtree alone: a directory item contributes exactly
its files strictly below it, a plain file item contributes itself at the top
level, an absent item contributes nothing. -/
def expectedItem (fs : FS) (src : FsPath) (item : String) (rel : FsPath) : Option Content :=
  if isDir fs (src ++ [item]) then
    (if rel.isEmpty then none else lookupF (src ++ [item] ++ rel) fs.files)
  else if pathExists fs (src ++ [item]) && rel.isEmpty then lookupF (src ++ [item]) fs.files
  else none

/-- The destination subtree contents after the copy loop processed `done`. -/
def destVal (fs : FS) (src : FsPath) (done : List String) (rel : FsPath) : Option Content :=
  match rel with
  | [] => none
  | item :: rest => if item ∈ done then expectedItem fs src item rest else none

/-- The loop invariant of the skills copy loop under a forced deployment:
no duplicate keys, untouched files outside the destination, the destination
holding exactly the processed items, and untouched directories below the
source. -/
def CopyInv (fs : FS) (src dst : FsPath) (done : List String) (g : FS) : Prop :=
  keysNodup g.files ∧
  (∀ q, beginsWith dst q = false → lookupF q g.files = lookupF q fs.files) ∧
  (∀ rel, lookupF (dst ++ rel) g.files = destVal fs src done rel) ∧
  (∀ d, beginsWith src d = true → memPath d g.dirs = memPath d fs.dirs)

/-- A concrete state for the C2 witness: a stale file sits under the Claude
destination, and the source holds one document and one bundle. -/
def fsC2 : FS :=
  { files := [(["cd", "skills", "dbcli", "skills", "stale.md"], "s".data),
              (["src", "README.md"], "r".data),
              (["src", "dbcli-query", "SKILL.md"], "m".data)],
    dirs := [[], ["cd"], ["cd", "skills"], ["cd", "skills", "dbcli"],
             ["cd", "skills", "dbcli", "skills"], ["src"], ["src", "dbcli-query"]] }

/-- A concrete state for the C8 witness: a fresh home, a workspace without a
repository marker, and a small source. -/
def fsCx : FS :=
  { files := [(["s", "README.md"], "r".data)], dirs := [[], ["s"], ["w"]] }

instance (l : List (FsPath × Content)) : Decidable (keysNodup l) :=
  decidable_of_iff ((l.map Prod.fst).Nodup) Iff.rfl

instance (fs : FS) : Decidable (WF fs) :=
  decidable_of_iff (keysNodup fs.files ∧
    ∀ pc ∈ fs.files, ∀ k, k < pc.1.length → memPath (pc.1.take k) fs.dirs = true) Iff.rfl

end DbCli

namespace DbCli

theorem lookupF_setFile_self (files : List (FsPath × Content)) (p : FsPath) (c : Content) :
    lookupF p (setFile files p c) = some c := by
  induction files with
  | nil => simp [setFile, lookupF]
  | cons hd tl ih =>
    obtain ⟨q, d⟩ := hd
    by_cases h : q = p
    · subst h
      simp [setFile, lookupF]
    · simp [setFile, lookupF, h, ih]

theorem beginsWith_self_append [DecidableEq α] (a t : List α) :
    beginsWith a (a ++ t) = true := by
  induction a with
  | nil => rfl
  | cons x xs ih => simp [beginsWith, ih]

theorem beginsWith_append_of [DecidableEq α] (m s b : List α) (h : beginsWith m s = true) :
    beginsWith m (s ++ b) = true := by
  induction m generalizing s with
  | nil => rfl
  | cons x xs ih =>
    cases s with
    | nil => simp [beginsWith] at h
    | cons y ys =>
      simp only [beginsWith, List.cons_append] at h ⊢
      by_cases hxy : x = y
      · rw [if_pos hxy] at h ⊢
        exact ih ys h
      · rw [if_neg hxy] at h
        exact absurd h (by simp)

theorem containsSub_nil_needle (hay : List Char) : containsSub [] hay = true := by
  cases hay with
  | nil => rfl
  | cons y ys => simp [containsSub, beginsWith]

theorem containsSub_append_left (m a b : List Char) (h : containsSub m a = true) :
    containsSub m (a ++ b) = true := by
  induction a with
  | nil =>
    have hm : m = [] := by
      cases m with
      | nil => rfl
      | cons x xs => simp [containsSub, List.isEmpty] at h
    subst hm
    exact containsSub_nil_needle b
  | cons x xs ih =>
    simp only [containsSub, Bool.or_eq_true] at h
    simp only [List.cons_append, containsSub, Bool.or_eq_true]
    rcases h with h | h
    · left
      have := beginsWith_append_of m (x :: xs) b h
      simpa using this
    · exact Or.inr (ih h)

theorem containsSub_append_right (m a b : List Char) (h : containsSub m b = true) :
    containsSub m (a ++ b) = true := by
  induction a with
  | nil => simpa using h
  | cons x xs ih =>
    simp only [List.cons_append, containsSub, Bool.or_eq_true]
    exact Or.inr ih

theorem containsSub_marker_block (p : FsPath) (r : Content) :
    containsSub marker (rulesBlockFor p r) = true := by
  unfold rulesBlockFor
  by_cases h : isYamlSuffix p = true
  · rw [if_pos h, List.append_assoc]
    apply containsSub_append_left
    decide
  · rw [if_neg h, List.append_assoc]
    apply containsSub_append_left
    decide

end DbCli

namespace DbCli

theorem mkdirParents_files (fs : FS) (p : FsPath) : (mkdirParents fs p).files = fs.files := rfl

theorem append_rules_blocked (fs : FS) (p : FsPath) (r e : Content)
    (he : lookupF p fs.files = some e) (hm : containsSub marker e = true) :
    append_dbcli_rules_to_file fs p r = fs := by
  unfold append_dbcli_rules_to_file
  rw [he]
  simp [hm]

theorem append_rules_marker_after (fs : FS) (p : FsPath) (r : Content) (h : r ≠ []) :
    ∃ e, lookupF p (append_dbcli_rules_to_file fs p r).files = some e ∧
      containsSub marker e = true := by
  have hne : r.isEmpty = false := by
    cases r with
    | nil => exact absurd rfl h
    | cons a l => rfl
  unfold append_dbcli_rules_to_file
  rw [hne]
  simp only [Bool.false_eq_true, if_false]
  cases hl : lookupF p fs.files with
  | some e =>
    by_cases hm : containsSub marker e = true
    · simp only [hm, if_true]
      exact ⟨e, hl, hm⟩
    · simp only [hm, if_false, Bool.false_eq_true]
      refine ⟨e ++ rulesBlockFor p r, ?_, ?_⟩
      · simp [mkdirParents_files, lookupF_setFile_self, hl, Option.getD]
      · exact containsSub_append_right marker e (rulesBlockFor p r) (containsSub_marker_block p r)
  | none =>
    simp only [if_false, Bool.false_eq_true]
    refine ⟨[] ++ rulesBlockFor p r, ?_, ?_⟩
    · simp [mkdirParents_files, lookupF_setFile_self, hl, Option.getD]
    · exact containsSub_append_right marker [] (rulesBlockFor p r) (containsSub_marker_block p r)

/-- C1: injecting a non-empty fragment twice in a row into the same host file
leaves the state of the first injection unchanged: the second call finds the
opening sentinel written (or already present) after the first call and appends
nothing, even when the fragment text changed between the calls, so the
fragment block occurs at most once. -/
theorem inject_fragment_idempotent (fs : FS) (p : FsPath) (r1 r2 : Content)
    (h1 : r1 ≠ []) (h2 : r2 ≠ []) :
    append_dbcli_rules_to_file (append_dbcli_rules_to_file fs p r1) p r2
      = append_dbcli_rules_to_file fs p r1 := by
  obtain ⟨e, he, hm⟩ := append_rules_marker_after fs p r1 h1
  exact append_rules_blocked _ p r2 e he hm

/-- Witness for C1 at a concrete host file and two different fragments. -/
theorem inject_fragment_idempotent_witness :
    ("Rule A".data ≠ ([] : Content)) ∧ ("Rule B".data ≠ ([] : Content)) ∧
    append_dbcli_rules_to_file
        (append_dbcli_rules_to_file (FS.mk [] [[]]) ["CLAUDE.md"] "Rule A".data)
        ["CLAUDE.md"] "Rule B".data
      = append_dbcli_rules_to_file (FS.mk [] [[]]) ["CLAUDE.md"] "Rule A".data :=
  ⟨by decide, by decide,
    inject_fragment_idempotent (FS.mk [] [[]]) ["CLAUDE.md"] "Rule A".data "Rule B".data
      (by decide) (by decide)⟩

/-- C10: injecting an empty fragment is a complete no-op on the filesystem:
no file content changes, no file is created, and no parent directory is
created. -/
theorem inject_empty_fragment_noop (fs : FS) (p : FsPath) :
    append_dbcli_rules_to_file fs p [] = fs := rfl

end DbCli

namespace DbCli

/-- C5: the source resolver returns the first of the three ordered candidate
skills directories (script directory, user-profile tools path, working
directory) that contains both `INTEGRATION.md` and `dbcli-query/SKILL.md`,
and the `[]` (`Path()`) sentinel when none qualifies; in particular an
earlier valid candidate always shadows a later one. -/
theorem resolver_first_qualifying (fs : FS) (scriptDir home cwd : FsPath) :
    resolve_skills_source fs scriptDir home cwd =
      (([scriptDir ++ ["skills"], home ++ ["tools", "dbcli", "skills"],
         cwd ++ ["skills"]].find? (qualifiesAsSource fs)).getD []) := by
  unfold resolve_skills_source
  cases h1 : qualifiesAsSource fs (scriptDir ++ ["skills"]) <;>
    cases h2 : qualifiesAsSource fs (home ++ ["tools", "dbcli", "skills"]) <;>
      cases h3 : qualifiesAsSource fs (cwd ++ ["skills"]) <;>
        simp [List.find?, h1, h2, h3]

/-- C9: when the flat-workspace target detects the canary bundle below the
working directory (`skills/dbcli-query` exists, i.e. the run is a
self-deployment from the canonical asset source), it reports the warning and
changes nothing: no destination is created and no file is copied. -/
theorem workspace_self_deploy_noop (fs : FS) (cwd src : FsPath) (force : Bool)
    (h : pathExists fs (cwd ++ ["skills", "dbcli-query"]) = true) :
    deploy_workspace_skills fs cwd src force = (fs, WorkspaceOutcome.selfSkip) := by
  unfold deploy_workspace_skills
  rw [h]
  simp

/-- Witness for C9: a run from the repository root beside the source tree. -/
theorem workspace_self_deploy_noop_witness :
    pathExists (FS.mk [(["skills", "dbcli-query", "SKILL.md"], "m".data)]
        [[], ["skills"], ["skills", "dbcli-query"]]) ["skills", "dbcli-query"] = true ∧
    deploy_workspace_skills (FS.mk [(["skills", "dbcli-query", "SKILL.md"], "m".data)]
        [[], ["skills"], ["skills", "dbcli-query"]]) [] ["skills"] false
      = (FS.mk [(["skills", "dbcli-query", "SKILL.md"], "m".data)]
          [[], ["skills"], ["skills", "dbcli-query"]], WorkspaceOutcome.selfSkip) :=
  ⟨by decide,
    workspace_self_deploy_noop
      (FS.mk [(["skills", "dbcli-query", "SKILL.md"], "m".data)]
        [[], ["skills"], ["skills", "dbcli-query"]]) [] ["skills"] false (by decide)⟩

/-- Counterexample to C6 as stated: the flat-workspace target never prompts;
a non-forced redeploy into the existing non-empty destination `skills/dbcli`
(with no affirmative operator confirmation anywhere) copies `README.md` into
it, so the destination is not byte-for-byte unchanged. -/
theorem nonforce_workspace_overwrites :
    pathExists fsWs ["skills", "dbcli"] = true ∧
    lookupF ["skills", "dbcli", "old.md"] fsWs.files = some "old".data ∧
    lookupF ["skills", "dbcli", "README.md"] fsWs.files = none ∧
    lookupF ["skills", "dbcli", "README.md"]
        ((deploy_workspace_skills fsWs [] ["srcsk"] false).1).files = some "new".data ∧
    (deploy_workspace_skills fsWs [] ["srcsk"] false).1 ≠ fsWs := by
  decide

/-- C6 (amended): for the prompt-guarded Claude target, a non-forced redeploy
into an existing destination with a non-affirmative operator answer leaves the
whole filesystem byte-for-byte unchanged and is reported as a user skip, not
an error; deployment-mode runs of `main` (no packaging flags, no
`--codex-global-only` conflict, source check passing) exit 0 regardless of
such skips. -/
theorem nonforce_decline_skips_claude (fs : FS) (claudeDir cwd src : FsPath)
    (hex : pathExists fs (claudeDir ++ ["skills", "dbcli"]) = true) :
    deploy_claude_skills fs claudeDir cwd src false false = (fs, ClaudeOutcome.skippedByUser)
    ∧ (∀ scriptDir home args, args.packageAll = false → args.packageSkills = [] →
        (args.codexGlobalOnly = false ∨ args.target = Target.codex) →
        pathExists fs (sourceCheckPath (resolve_skills_source fs scriptDir home cwd) cwd) = true →
        mainExitCode fs scriptDir home cwd args = 0) := by
  constructor
  · unfold deploy_claude_skills
    simp [hex]
  · intro scriptDir home args hpa hps hconf hsrc
    unfold mainExitCode
    have hc : (args.codexGlobalOnly && !(args.target = Target.codex)) = false := by
      rcases hconf with h | h
      · simp [h]
      · simp [h]
    rw [hc]
    simp only [Bool.false_eq_true, if_false]
    rw [hsrc]
    simp [hpa, hps]

end DbCli

namespace DbCli

theorem lookupF_mem (l : List (FsPath × Content)) (q : FsPath) (c : Content)
    (h : lookupF q l = some c) : (q, c) ∈ l := by
  induction l with
  | nil => simp [lookupF] at h
  | cons hd tl ih =>
    obtain ⟨p, d⟩ := hd
    by_cases hpq : p = q
    · subst hpq
      simp [lookupF] at h
      subst h
      exact List.mem_cons_self _ _
    · simp [lookupF, hpq] at h
      exact List.mem_cons_of_mem _ (ih h)

theorem beginsWith_iff_append [DecidableEq α] (a b : List α) :
    beginsWith a b = true ↔ ∃ t, b = a ++ t := by
  constructor
  · intro h
    induction a generalizing b with
    | nil => exact ⟨b, rfl⟩
    | cons x xs ih =>
      cases b with
      | nil => simp [beginsWith] at h
      | cons y ys =>
        simp only [beginsWith] at h
        by_cases hxy : x = y
        · subst hxy
          rw [if_pos rfl] at h
          obtain ⟨t, ht⟩ := ih ys h
          exact ⟨t, by rw [List.cons_append, ht]⟩
        · rw [if_neg hxy] at h
          exact absurd h (by simp)
  · rintro ⟨t, rfl⟩
    exact beginsWith_self_append a t

theorem stripInit_append [DecidableEq α] (p t : List α) : stripInit p (p ++ t) = some t := by
  unfold stripInit
  rw [if_pos (beginsWith_self_append p t)]
  rw [List.drop_left]

theorem stripInit_eq_some [DecidableEq α] (p q rel : List α) (h : stripInit p q = some rel) :
    q = p ++ rel := by
  unfold stripInit at h
  by_cases hb : beginsWith p q = true
  · rw [if_pos hb] at h
    obtain ⟨t, rfl⟩ := (beginsWith_iff_append p q).mp hb
    rw [List.drop_left] at h
    cases h
    rfl
  · rw [if_neg hb] at h
    cases h

theorem mem_filesUnder_of_lookup (fs : FS) (root rel : FsPath) (c : Content)
    (hne : rel ≠ []) (h : lookupF (root ++ rel) fs.files = some c) :
    (rel, c) ∈ filesUnder fs root := by
  unfold filesUnder
  refine List.mem_filterMap.mpr ⟨(root ++ rel, c), lookupF_mem _ _ _ h, ?_⟩
  rw [stripInit_append]
  simp [List.isEmpty_iff, hne]

theorem mem_filesUnder_elim (fs : FS) (root : FsPath) (e : FsPath × Content)
    (h : e ∈ filesUnder fs root) :
    (root ++ e.1, e.2) ∈ fs.files ∧ e.1 ≠ [] := by
  unfold filesUnder at h
  obtain ⟨⟨q, c⟩, hmem, heq⟩ := List.mem_filterMap.mp h
  cases hs : stripInit root q with
  | none => rw [hs] at heq; cases heq
  | some rel =>
    rw [hs] at heq
    dsimp only at heq
    by_cases hne : rel.isEmpty = true
    · rw [if_pos hne] at heq; cases heq
    · rw [if_neg hne] at heq
      cases heq
      have := stripInit_eq_some root q rel hs
      subst this
      exact ⟨hmem, by simpa [List.isEmpty_iff] using hne⟩

/-- C4: for a bundle directory, packaging succeeds and the archive satisfies
the round-trip contract: the explicit empty-directory entry for the bundle
root comes first; every entry path is POSIX-joined and rooted at the bundle
name; every regular file below the bundle appears under its bundle-rooted
name with its content reproduced byte-for-byte; conversely every file entry
comes from a file of the bundle; and any path whose base name matches the
manifest name case-insensitively is written with base name exactly
`Skill.md`. -/
theorem package_zip_roundtrip (fs : FS) (skillName : String) (src : FsPath)
    (hdir : isDir fs (src ++ [skillName]) = true) :
    ∃ a, package_claude_skill_zip fs skillName src = some a ∧
      a.entries.head? = some (skillName ++ "/", ([] : Content)) ∧
      (∀ e ∈ a.entries, ∃ rest, e.1 = skillName ++ "/" ++ rest) ∧
      (∀ rel c, rel ≠ [] → lookupF (src ++ [skillName] ++ rel) fs.files = some c →
        (entryName skillName rel, c) ∈ a.entries) ∧
      (∀ e ∈ a.entries.tail, ∃ rel c, (src ++ [skillName] ++ rel, c) ∈ fs.files ∧ rel ≠ [] ∧
        e = (entryName skillName rel, c)) ∧
      (∀ rel : FsPath, ∀ n, rel.getLast? = some n → toLowerS n = "skill.md" →
        (renameManifest rel).getLast? = some "Skill.md") := by
  have hex : pathExists fs (src ++ [skillName]) = true := by
    unfold pathExists
    rw [hdir]
    simp
  unfold package_claude_skill_zip
  simp only [hex, hdir, Bool.not_true, Bool.false_eq_true, if_false]
  refine ⟨_, rfl, rfl, ?_, ?_, ?_, ?_⟩
  · intro e he
    simp only [List.mem_cons] at he
    rcases he with he | he
    · subst he
      exact ⟨"", by rw [String.append_empty]⟩
    · obtain ⟨rc, _hmem, heq⟩ := List.mem_map.mp he
      exact ⟨String.intercalate "/" (renameManifest rc.1), by rw [← heq]; rfl⟩
  · intro rel c hne hl
    apply List.mem_cons_of_mem
    exact List.mem_map.mpr ⟨(rel, c),
      mem_filesUnder_of_lookup fs (src ++ [skillName]) rel c hne hl, rfl⟩
  · intro e he
    simp only [List.tail_cons] at he
    obtain ⟨⟨rel, c⟩, hmem, heq⟩ := List.mem_map.mp he
    have h2 := mem_filesUnder_elim fs (src ++ [skillName]) (rel, c) hmem
    exact ⟨rel, c, h2.1, h2.2, heq.symm⟩
  · intro rel n hlast hlow
    unfold renameManifest
    rw [hlast]
    dsimp only
    rw [if_pos hlow]
    simp

end DbCli

namespace DbCli

theorem memPath_iff (p : FsPath) (l : List FsPath) : memPath p l = true ↔ p ∈ l := by
  induction l with
  | nil => simp [memPath]
  | cons q rest ih =>
    by_cases h : q = p
    · subst h
      simp [memPath]
    · simp only [memPath, if_neg h, ih, List.mem_cons]
      constructor
      · intro hp
        exact Or.inr hp
      · intro hp
        rcases hp with hp | hp
        · exact absurd hp.symm h
        · exact hp

theorem childNameOf_eq_some (p d : FsPath) (n : String) :
    childNameOf p d = some n ↔ d = p ++ [n] := by
  constructor
  · intro h
    unfold childNameOf at h
    cases hs : stripInit p d with
    | none => rw [hs] at h; cases h
    | some rel =>
      rw [hs] at h
      have hd := stripInit_eq_some p d rel hs
      cases rel with
      | nil => cases h
      | cons m tail =>
        cases tail with
        | nil =>
          simp only [Option.some.injEq] at h
          subst h
          exact hd
        | cons m2 tail2 => cases h
  · rintro rfl
    unfold childNameOf
    rw [stripInit_append]

theorem mem_insertSorted (x y : String) (l : List String) :
    y ∈ insertSorted x l ↔ y = x ∨ y ∈ l := by
  induction l with
  | nil => simp [insertSorted]
  | cons z rest ih =>
    by_cases h : x ≤ z
    · simp [insertSorted, h]
    · simp [insertSorted, h, ih]
      tauto

theorem insertSorted_pairwise (x : String) (l : List String) (h : l.Pairwise (· ≤ ·)) :
    (insertSorted x l).Pairwise (· ≤ ·) := by
  induction l with
  | nil => simp [insertSorted]
  | cons z rest ih =>
    rw [List.pairwise_cons] at h
    by_cases hxz : x ≤ z
    · simp only [insertSorted, if_pos hxz]
      refine List.pairwise_cons.mpr ⟨?_, List.pairwise_cons.mpr h⟩
      intro b hb
      rcases List.mem_cons.mp hb with rfl | hb
      · exact hxz
      · exact le_trans hxz (h.1 b hb)
    · have hzx : z ≤ x := le_of_not_le hxz
      simp only [insertSorted, if_neg hxz]
      refine List.pairwise_cons.mpr ⟨?_, ih h.2⟩
      intro b hb
      rcases (mem_insertSorted x b rest).mp hb with rfl | hb
      · exact hzx
      · exact h.1 b hb

theorem sortNames_pairwise (l : List String) : (sortNames l).Pairwise (· ≤ ·) := by
  induction l with
  | nil => simp [sortNames]
  | cons x rest ih => exact insertSorted_pairwise x (sortNames rest) ih

theorem mem_sortNames (l : List String) (y : String) : y ∈ sortNames l ↔ y ∈ l := by
  induction l with
  | nil => simp [sortNames]
  | cons x rest ih =>
    show y ∈ insertSorted x (sortNames rest) ↔ _
    rw [mem_insertSorted]
    simp [ih]

/-- Counterexample to C3 as stated: under package-all, a bundle directory that
exists but lacks its manifest is not selected by `get_claude_skill_names` at
all, so no archive for it is attempted or produced (rather than an archive
with a warning): here only `a` is resolved and `b` is absent from the
selection. -/
theorem package_all_skips_manifestless_bundle :
    isDir fsAB ["s", "b"] = true ∧
    pathExists fsAB ["s", "b", "SKILL.md"] = false ∧
    get_claude_skill_names fsAB ["s"] = ["a"] ∧
    ¬ ("b" ∈ get_claude_skill_names fsAB ["s"]) := by
  refine ⟨by decide, by decide, by decide, ?_⟩
  intro h
  have : get_claude_skill_names fsAB ["s"] = ["a"] := by decide
  rw [this] at h
  simp at h

/-- C3 (amended): packaging all bundles resolves exactly the alphabetically
ordered names of the child directories containing a `SKILL.md` entry (a
bundle directory lacking its manifest is not selected at all; the
warned-but-archived behaviour applies to a directory whose manifest is
missing as an immediate child regular file, e.g. named explicitly); a bundle
whose directory is absent fails, and each selected bundle is packaged
independently of the others; the package-all run exits zero iff every
selected bundle packaged successfully, the selection being attempted in
full. -/
theorem package_all_contract (fs : FS) (src : FsPath) :
    (get_claude_skill_names fs src).Pairwise (· ≤ ·) ∧
    (∀ n, n ∈ get_claude_skill_names fs src ↔
      isDir fs (src ++ [n]) = true ∧ pathExists fs (src ++ [n, "SKILL.md"]) = true) ∧
    (∀ n, pathExists fs (src ++ [n]) = false → package_claude_skill_zip fs n src = none) ∧
    (∀ n, isDir fs (src ++ [n]) = true → hasManifestChild fs (src ++ [n]) = false →
      ∃ a, package_claude_skill_zip fs n src = some a ∧ a.warned = true) ∧
    (∀ scriptDir home cwd,
      pathExists fs (sourceCheckPath (resolve_skills_source fs scriptDir home cwd) cwd) = true →
      (get_claude_skill_names fs
        (effectiveSource (resolve_skills_source fs scriptDir home cwd) cwd)).isEmpty = false →
      (mainExitCode fs scriptDir home cwd (Args.mk Target.all false false [] true) = 0 ↔
        ∀ n ∈ get_claude_skill_names fs
            (effectiveSource (resolve_skills_source fs scriptDir home cwd) cwd),
          (package_claude_skill_zip fs n
            (effectiveSource (resolve_skills_source fs scriptDir home cwd) cwd)).isSome = true)) := by
  refine ⟨sortNames_pairwise _, ?_, ?_, ?_, ?_⟩
  · intro n
    unfold get_claude_skill_names
    rw [mem_sortNames, List.mem_filter, List.mem_filterMap]
    constructor
    · rintro ⟨⟨d, hd, hc⟩, hp⟩
      have := (childNameOf_eq_some src d n).mp hc
      subst this
      exact ⟨(memPath_iff _ _).mpr hd, hp⟩
    · rintro ⟨hd, hp⟩
      exact ⟨⟨src ++ [n], (memPath_iff _ _).mp hd, (childNameOf_eq_some src _ n).mpr rfl⟩, hp⟩
  · intro n hne
    unfold package_claude_skill_zip
    simp [hne]
  · intro n hd hm
    have hex : pathExists fs (src ++ [n]) = true := by
      unfold pathExists
      rw [hd]
      simp
    unfold package_claude_skill_zip
    simp only [hex, hd, hm, Bool.not_true, Bool.not_false, Bool.false_eq_true, if_false]
    exact ⟨_, rfl, rfl⟩
  · intro scriptDir home cwd hsrc hnames
    simp only [mainExitCode, selectedNames, Bool.false_and, Bool.false_eq_true, if_false, hsrc,
      if_true, Bool.not_true, List.isEmpty_nil, Bool.and_false, Bool.true_or, hnames]
    split_ifs with hall
    · exact ⟨fun _ => List.all_eq_true.mp hall, fun _ => rfl⟩
    · constructor
      · intro h
        simp at h
      · intro hq
        exact absurd (List.all_eq_true.mpr hq) hall

end DbCli

namespace DbCli

/-- Witness for C4 at a concrete bundle: packaging succeeds, the directory
entry comes first, the miscased manifest is reproduced as `a/Skill.md` with
its content, and the nested file is reproduced byte-for-byte. -/
theorem package_zip_roundtrip_witness :
    isDir fsPkg ["s", "a"] = true ∧
    ∃ a, package_claude_skill_zip fsPkg "a" ["s"] = some a ∧
      a.entries.head? = some ("a/", ([] : Content)) ∧
      ("a/Skill.md", "m".data) ∈ a.entries ∧ ("a/ref/doc.md", "d".data) ∈ a.entries := by
  refine ⟨by decide, ?_⟩
  obtain ⟨a, ha, hhead, _hroot, hall, _⟩ := package_zip_roundtrip fsPkg "a" ["s"] (by decide)
  refine ⟨a, ha, hhead, ?_, ?_⟩
  · have h1 := hall ["skill.MD"] "m".data (by decide) (by decide)
    have he : entryName "a" ["skill.MD"] = "a/Skill.md" := by decide
    rwa [he] at h1
  · have h1 := hall ["ref", "doc.md"] "d".data (by decide) (by decide)
    have he : entryName "a" ["ref", "doc.md"] = "a/ref/doc.md" := by decide
    rwa [he] at h1

/-- Witness for the amended C6 at a concrete state: with the destination
present, no force and a declined prompt, the state is unchanged and the
outcome is the user skip. -/
theorem nonforce_decline_skips_claude_witness :
    pathExists fsCl ([".claude"] ++ ["skills", "dbcli"]) = true ∧
    deploy_claude_skills fsCl [".claude"] [] ["skills"] false false
      = (fsCl, ClaudeOutcome.skippedByUser) :=
  ⟨by decide,
    (nonforce_decline_skips_claude fsCl [".claude"] [] ["skills"] (by decide)).1⟩

/-- Witness instantiating the C3 contract at a concrete source: the resolved
names, the missing-directory failure and the warned success are all exercised. -/
theorem package_all_contract_witness :
    get_claude_skill_names fsAB ["s"] = ["a"] ∧
    package_claude_skill_zip fsAB "zzz" ["s"] = none ∧
    (∃ a, package_claude_skill_zip fsAB "b" ["s"] = some a ∧ a.warned = true) := by
  refine ⟨by decide, ?_, ?_⟩
  · exact (package_all_contract fsAB ["s"]).2.2.1 "zzz" (by decide)
  · exact (package_all_contract fsAB ["s"]).2.2.2.1 "b" (by decide) (by decide)

end DbCli

namespace DbCli

/-- Counterexample to C7 as stated: with a resolvable source, no packaging
request at all (hence no packaging failure and no conflicting packaging
flags), supplying the codex-global-only restriction together with
`--target claude` still exits non-zero. -/
theorem exit_nonzero_globalonly_conflict :
    resolve_skills_source fsMain ["sd"] ["h"] ["c"] = ["sd", "skills"] ∧
    (Args.mk Target.claude false true [] false).packageAll = false ∧
    (Args.mk Target.claude false true [] false).packageSkills = [] ∧
    mainExitCode fsMain ["sd"] ["h"] ["c"] (Args.mk Target.claude false true [] false) = 1 := by
  decide

theorem not_isEmpty_iff_ne_nil (l : List α) : (!l.isEmpty) = true ↔ l ≠ [] := by
  cases l <;> simp

/-- C7 (amended): on the modelled runs the exit code is non-zero exactly when
the codex-global-only restriction accompanies a non-Codex target, the
effective source check fails (no candidate resolved and the working-directory
fallback lacks the integration guide), or packaging was requested and either
both packaging flags were supplied together, the bundle selection is empty,
or some selected bundle fails to package; every other modelled run exits
zero, in particular runs whose individual target deployments were skipped. -/
theorem exit_code_characterization (fs : FS) (scriptDir home cwd : FsPath) (args : Args) :
    mainExitCode fs scriptDir home cwd args ≠ 0 ↔
      (args.codexGlobalOnly = true ∧ args.target ≠ Target.codex) ∨
      pathExists fs (sourceCheckPath (resolve_skills_source fs scriptDir home cwd) cwd) = false ∨
      ((args.packageAll = true ∨ args.packageSkills ≠ []) ∧
        ((args.packageAll = true ∧ args.packageSkills ≠ []) ∨
         selectedNames fs scriptDir home cwd args = [] ∨
         ∃ n ∈ selectedNames fs scriptDir home cwd args,
           (package_claude_skill_zip fs n
             (effectiveSource (resolve_skills_source fs scriptDir home cwd) cwd)).isSome
             = false)) := by
  simp only [mainExitCode]
  split_ifs with h1 h2 h3 h4 h5 h6
  · simp only [ne_eq, one_ne_zero, not_false_eq_true, true_iff]
    rw [Bool.and_eq_true] at h1
    refine Or.inl ⟨h1.1, ?_⟩
    intro hc
    rw [hc] at h1
    simp at h1
  · simp only [ne_eq, one_ne_zero, not_false_eq_true, true_iff]
    rw [Bool.not_eq_true'] at h2
    exact Or.inr (Or.inl h2)
  · simp only [ne_eq, one_ne_zero, not_false_eq_true, true_iff]
    rw [Bool.or_eq_true] at h3
    rw [Bool.and_eq_true] at h4
    refine Or.inr (Or.inr ⟨?_, Or.inl ⟨h4.1, ?_⟩⟩)
    · rcases h3 with h | h
      · exact Or.inl h
      · exact Or.inr ((not_isEmpty_iff_ne_nil _).mp h)
    · exact (not_isEmpty_iff_ne_nil _).mp h4.2
  · simp only [ne_eq, one_ne_zero, not_false_eq_true, true_iff]
    rw [Bool.or_eq_true] at h3
    rw [List.isEmpty_iff] at h5
    refine Or.inr (Or.inr ⟨?_, Or.inr (Or.inl h5)⟩)
    rcases h3 with h | h
    · exact Or.inl h
    · exact Or.inr ((not_isEmpty_iff_ne_nil _).mp h)
  · simp only [ne_eq, not_true_eq_false, false_iff, not_or]
    rw [Bool.or_eq_true] at h3
    refine ⟨?_, ?_, ?_⟩
    · intro hc
      apply h1
      rw [Bool.and_eq_true]
      refine ⟨hc.1, ?_⟩
      simpa using hc.2
    · intro hc
      rw [Bool.not_eq_true', hc] at h2
      simp at h2
    · intro hc
      rcases hc.2 with hd | hd | hd
      · apply h4
        rw [Bool.and_eq_true]
        refine ⟨hd.1, ?_⟩
        simpa [List.isEmpty_iff] using hd.2
      · rw [← List.isEmpty_iff] at hd
        rw [hd] at h5
        simp at h5
      · obtain ⟨n, hn, hfail⟩ := hd
        have := List.all_eq_true.mp h6 n hn
        rw [hfail] at this
        simp at this
  · simp only [ne_eq, one_ne_zero, not_false_eq_true, true_iff]
    rw [Bool.or_eq_true] at h3
    refine Or.inr (Or.inr ⟨?_, Or.inr (Or.inr ?_)⟩)
    · rcases h3 with h | h
      · exact Or.inl h
      · exact Or.inr ((not_isEmpty_iff_ne_nil _).mp h)
    · rcases List.all_eq_false.mp (Bool.eq_false_iff.mpr h6) with ⟨n, hn, hf⟩
      exact ⟨n, hn, by simpa using hf⟩
  · simp only [ne_eq, not_true_eq_false, false_iff, not_or]
    refine ⟨?_, ?_, ?_⟩
    · intro hc
      apply h1
      rw [Bool.and_eq_true]
      refine ⟨hc.1, ?_⟩
      simpa using hc.2
    · intro hc
      rw [Bool.not_eq_true', hc] at h2
      simp at h2
    · intro hc
      apply h3
      rw [Bool.or_eq_true]
      rcases hc.1 with h | h
      · exact Or.inl h
      · exact Or.inr ((not_isEmpty_iff_ne_nil _).mpr h)

end DbCli

namespace DbCli

theorem beginsWith_of_append [DecidableEq α] (a b q : List α)
    (h : beginsWith (a ++ b) q = true) : beginsWith a q = true := by
  obtain ⟨t, rfl⟩ := (beginsWith_iff_append _ _).mp h
  rw [List.append_assoc]
  exact beginsWith_self_append a (b ++ t)

theorem beginsWith_append_same [DecidableEq α] (a b c : List α) :
    beginsWith (a ++ b) (a ++ c) = beginsWith b c := by
  induction a with
  | nil => rfl
  | cons x xs ih => simpa [beginsWith] using ih

theorem beginsWith_length_le [DecidableEq α] (a q : List α) (h : beginsWith a q = true) :
    a.length ≤ q.length := by
  obtain ⟨t, rfl⟩ := (beginsWith_iff_append _ _).mp h
  simp

theorem beginsWith_comparable [DecidableEq α] (q a b : List α)
    (ha : beginsWith a q = true) (hb : beginsWith b q = true) :
    beginsWith a b = true ∨ beginsWith b a = true := by
  induction q generalizing a b with
  | nil =>
    cases a with
    | nil => exact Or.inl rfl
    | cons x xs => simp [beginsWith] at ha
  | cons z zs ih =>
    cases a with
    | nil => exact Or.inl rfl
    | cons x xs =>
      cases b with
      | nil => exact Or.inr rfl
      | cons y ys =>
        simp only [beginsWith] at ha hb
        by_cases hx : x = z
        · by_cases hy : y = z
          · subst hx
            subst hy
            rw [if_pos rfl] at ha hb
            rcases ih xs ys ha hb with h | h
            · exact Or.inl (by simp [beginsWith, h])
            · exact Or.inr (by simp [beginsWith, h])
          · rw [if_neg hy] at hb
            exact absurd hb (by simp)
        · rw [if_neg hx] at ha
          exact absurd ha (by simp)

end DbCli

namespace DbCli

theorem lookupF_filter_keep (P : FsPath × Content → Bool) (l : List (FsPath × Content))
    (q : FsPath) (h : ∀ c, P (q, c) = true) :
    lookupF q (l.filter P) = lookupF q l := by
  induction l with
  | nil => rfl
  | cons hd tl ih =>
    obtain ⟨p, c⟩ := hd
    by_cases hp : p = q
    · subst hp
      rw [List.filter_cons, h c]
      simp [lookupF]
    · rw [List.filter_cons]
      by_cases hP : P (p, c) = true
      · rw [if_pos (by simpa using hP)]
        simp only [lookupF, if_neg hp]
        exact ih
      · rw [if_neg (by simpa using hP)]
        rw [ih]
        simp [lookupF, hp]

theorem lookupF_filter_drop (P : FsPath × Content → Bool) (l : List (FsPath × Content))
    (q : FsPath) (h : ∀ c, P (q, c) = false) :
    lookupF q (l.filter P) = none := by
  induction l with
  | nil => rfl
  | cons hd tl ih =>
    obtain ⟨p, c⟩ := hd
    rw [List.filter_cons]
    by_cases hp : p = q
    · subst hp
      rw [h c]
      simpa using ih
    · by_cases hP : P (p, c) = true
      · rw [if_pos (by simpa using hP)]
        simp only [lookupF, if_neg hp]
        exact ih
      · rw [if_neg (by simpa using hP)]
        exact ih

theorem memPath_filter_keep (P : FsPath → Bool) (l : List FsPath) (d : FsPath)
    (h : P d = true) :
    memPath d (l.filter P) = memPath d l := by
  induction l with
  | nil => rfl
  | cons p tl ih =>
    rw [List.filter_cons]
    by_cases hp : p = d
    · subst hp
      rw [h]
      simp [memPath]
    · by_cases hP : P p = true
      · rw [if_pos (by simpa using hP)]
        simp only [memPath, if_neg hp]
        exact ih
      · rw [if_neg (by simpa using hP)]
        rw [ih]
        simp [memPath, hp]

theorem memPath_filter_drop (P : FsPath → Bool) (l : List FsPath) (d : FsPath)
    (h : P d = false) :
    memPath d (l.filter P) = false := by
  induction l with
  | nil => rfl
  | cons p tl ih =>
    rw [List.filter_cons]
    by_cases hp : p = d
    · subst hp
      rw [h]
      simpa using ih
    · by_cases hP : P p = true
      · rw [if_pos (by simpa using hP)]
        simp only [memPath, if_neg hp]
        exact ih
      · rw [if_neg (by simpa using hP)]
        exact ih

theorem lookupF_setFile_ne (files : List (FsPath × Content)) (p q : FsPath) (c : Content)
    (h : q ≠ p) : lookupF q (setFile files p c) = lookupF q files := by
  induction files with
  | nil => simp [setFile, lookupF, Ne.symm h]
  | cons hd tl ih =>
    obtain ⟨r, d⟩ := hd
    by_cases hr : r = p
    · subst hr
      simp only [setFile, if_pos rfl, lookupF]
      rw [if_neg (Ne.symm h), if_neg (Ne.symm h)]
    · simp only [setFile, if_neg hr]
      simp only [lookupF]
      by_cases hrq : r = q
      · simp [hrq]
      · simp [hrq, ih]

theorem memPath_append (d : FsPath) (l1 l2 : List FsPath) :
    memPath d (l1 ++ l2) = (memPath d l1 || memPath d l2) := by
  induction l1 with
  | nil => simp [memPath]
  | cons p tl ih =>
    by_cases hp : p = d
    · subst hp
      simp [memPath]
    · simp [memPath, hp, ih]

theorem memPath_addDir_ne (dirs : List FsPath) (p d : FsPath) (h : d ≠ p) :
    memPath d (addDir dirs p) = memPath d dirs := by
  unfold addDir
  by_cases hm : memPath p dirs = true
  · rw [if_pos hm]
  · rw [if_neg hm, memPath_append]
    have h2 : memPath d [p] = false := by simp [memPath, Ne.symm h]
    rw [h2]
    simp

theorem memPath_addDir_self (dirs : List FsPath) (p : FsPath) :
    memPath p (addDir dirs p) = true := by
  unfold addDir
  by_cases hm : memPath p dirs = true
  · rw [if_pos hm]
    exact hm
  · rw [if_neg hm, memPath_append]
    simp [memPath]

theorem rmtree_files_outside (fs : FS) (p q : FsPath) (h : beginsWith p q = false) :
    lookupF q (rmtree fs p).files = lookupF q fs.files := by
  unfold rmtree
  exact lookupF_filter_keep _ _ _ (fun c => by simp [h])

theorem rmtree_files_under (fs : FS) (p q : FsPath) (h : beginsWith p q = true) :
    lookupF q (rmtree fs p).files = none := by
  unfold rmtree
  exact lookupF_filter_drop _ _ _ (fun c => by simp [h])

theorem rmtree_dirs_outside (fs : FS) (p d : FsPath) (h : beginsWith p d = false) :
    memPath d (rmtree fs p).dirs = memPath d fs.dirs := by
  unfold rmtree
  exact memPath_filter_keep _ _ _ (by simp [h])

theorem rmtree_dirs_under (fs : FS) (p d : FsPath) (h : beginsWith p d = true) :
    memPath d (rmtree fs p).dirs = false := by
  unfold rmtree
  exact memPath_filter_drop _ _ _ (by simp [h])

end DbCli

namespace DbCli

theorem copy2_dirs (fs : FS) (src dst : FsPath) : (copy2 fs src dst).dirs = fs.dirs := by
  unfold copy2
  cases lookupF src fs.files <;> rfl

theorem copy2_files_outside (fs : FS) (src dst q : FsPath) (h : q ≠ dst) :
    lookupF q (copy2 fs src dst).files = lookupF q fs.files := by
  unfold copy2
  cases lookupF src fs.files with
  | none => rfl
  | some c => exact lookupF_setFile_ne fs.files dst q c h

theorem mkdirParents_dirs_outside (fs : FS) (p d : FsPath) (h : ¬ d ∈ initsOf p) :
    memPath d (mkdirParents fs p).dirs = memPath d fs.dirs := by
  unfold mkdirParents
  have hgen : ∀ (L : List FsPath) (A : List FsPath), (∀ x ∈ L, x ≠ d) →
      memPath d (L.foldl addDir A) = memPath d A := by
    intro L
    induction L with
    | nil => intro A _; rfl
    | cons x tl ih =>
      intro A hx
      simp only [List.foldl_cons]
      rw [ih _ (fun y hy => hx y (List.mem_cons_of_mem _ hy))]
      exact memPath_addDir_ne A x d (fun hc => hx x (List.mem_cons_self _ _) hc.symm)
  exact hgen _ _ (fun x hx hxd => h (hxd ▸ hx))

theorem memPath_foldl_addDir_of_mem (L : List FsPath) (A : List FsPath) (d : FsPath)
    (h : memPath d A = true ∨ d ∈ L) :
    memPath d (L.foldl addDir A) = true := by
  induction L generalizing A with
  | nil =>
    rcases h with h | h
    · exact h
    · simp at h
  | cons x tl ih =>
    simp only [List.foldl_cons]
    rcases h with h | h
    · refine ih _ (Or.inl ?_)
      by_cases hxd : d = x
      · subst hxd
        exact memPath_addDir_self A d
      · rw [memPath_addDir_ne A x d hxd]
        exact h
    · rcases List.mem_cons.mp h with rfl | h
      · exact ih _ (Or.inl (memPath_addDir_self A d))
      · exact ih _ (Or.inr h)

theorem mem_initsOf_iff (d p : FsPath) : d ∈ initsOf p ↔ beginsWith d p = true := by
  unfold initsOf
  rw [List.mem_map]
  constructor
  · rintro ⟨k, _hk, rfl⟩
    rw [beginsWith_iff_append]
    exact ⟨p.drop k, by rw [List.take_append_drop]⟩
  · intro h
    obtain ⟨t, ht⟩ := (beginsWith_iff_append _ _).mp h
    refine ⟨d.length, ?_, ?_⟩
    · rw [List.mem_range]
      have : p.length = d.length + t.length := by rw [ht]; simp
      omega
    · rw [ht, List.take_left]

theorem mkdirParents_self_mem (fs : FS) (p : FsPath) :
    memPath p (mkdirParents fs p).dirs = true := by
  unfold mkdirParents
  refine memPath_foldl_addDir_of_mem _ _ _ (Or.inr ?_)
  rw [mem_initsOf_iff]
  exact beginsWith_self_append p [] |>.symm ▸ (by
    have := beginsWith_self_append p ([] : FsPath)
    simpa using this)

theorem copytree_files_outside (fs : FS) (src dst q : FsPath) (h : beginsWith dst q = false) :
    lookupF q (copytree fs src dst).files = lookupF q fs.files := by
  unfold copytree
  have hgen : ∀ (L : List (FsPath × Content)) (A : List (FsPath × Content)),
      lookupF q (L.foldl (fun acc rc => setFile acc (dst ++ rc.1) rc.2) A) = lookupF q A := by
    intro L
    induction L with
    | nil => intro A; rfl
    | cons rc tl ih =>
      intro A
      simp only [List.foldl_cons]
      rw [ih]
      refine lookupF_setFile_ne A (dst ++ rc.1) q rc.2 ?_
      intro hc
      rw [hc] at h
      rw [beginsWith_self_append] at h
      cases h
  exact hgen _ _

theorem copytree_dirs_outside (fs : FS) (src dst d : FsPath) (h : beginsWith dst d = false) :
    memPath d (copytree fs src dst).dirs = memPath d fs.dirs := by
  unfold copytree
  have hgen : ∀ (L : List FsPath) (A : List FsPath),
      memPath d (L.foldl (fun acc rel => addDir acc (dst ++ rel)) A) = memPath d A := by
    intro L
    induction L with
    | nil => intro A; rfl
    | cons rel tl ih =>
      intro A
      simp only [List.foldl_cons]
      rw [ih]
      refine memPath_addDir_ne A (dst ++ rel) d ?_
      intro hc
      rw [hc] at h
      rw [beginsWith_self_append] at h
      cases h
  exact hgen _ _

end DbCli

namespace DbCli

theorem setFile_cons_eq (q : FsPath) (d : Content) (tl : List (FsPath × Content)) (c : Content) :
    setFile ((q, d) :: tl) q c = (q, c) :: tl := by
  simp [setFile]

theorem setFile_cons_ne (p q : FsPath) (d : Content) (tl : List (FsPath × Content)) (c : Content)
    (h : q ≠ p) : setFile ((q, d) :: tl) p c = (q, d) :: setFile tl p c := by
  simp [setFile, h]

theorem mem_keys_setFile (tl : List (FsPath × Content)) (p x : FsPath) (c : Content) :
    x ∈ (setFile tl p c).map Prod.fst → x ∈ tl.map Prod.fst ∨ x = p := by
  induction tl with
  | nil =>
    intro h
    simp [setFile] at h
    exact Or.inr h
  | cons hd rest ih =>
    intro h
    obtain ⟨q, d⟩ := hd
    by_cases hq : q = p
    · subst hq
      rw [setFile_cons_eq] at h
      simp only [List.map_cons, List.mem_cons] at h ⊢
      tauto
    · rw [setFile_cons_ne _ _ _ _ _ hq] at h
      simp only [List.map_cons, List.mem_cons] at h ⊢
      rcases h with h | h
      · tauto
      · rcases ih h with h | h <;> tauto

theorem keysNodup_setFile (l : List (FsPath × Content)) (p : FsPath) (c : Content) :
    keysNodup l → keysNodup (setFile l p c) := by
  induction l with
  | nil =>
    intro _
    simp [keysNodup, setFile]
  | cons hd tl ih =>
    intro h
    obtain ⟨q, d⟩ := hd
    unfold keysNodup at h ⊢
    simp only [List.map_cons, List.nodup_cons] at h
    by_cases hq : q = p
    · subst hq
      rw [setFile_cons_eq]
      simp only [List.map_cons, List.nodup_cons]
      exact h
    · rw [setFile_cons_ne _ _ _ _ _ hq]
      simp only [List.map_cons, List.nodup_cons]
      refine ⟨?_, ih h.2⟩
      intro hmem
      rcases mem_keys_setFile tl p q c hmem with hm | hm
      · exact h.1 hm
      · exact hq hm

theorem keysNodup_filter (P : FsPath × Content → Bool) (l : List (FsPath × Content))
    (h : keysNodup l) : keysNodup (l.filter P) := by
  unfold keysNodup at h ⊢
  exact List.Nodup.sublist (List.Sublist.map Prod.fst (List.filter_sublist l)) h

theorem keysNodup_foldl_setFile (dst : FsPath) (L : List (FsPath × Content)) :
    ∀ (A : List (FsPath × Content)), keysNodup A →
    keysNodup (L.foldl (fun acc rc => setFile acc (dst ++ rc.1) rc.2) A) := by
  induction L with
  | nil => exact fun A h => h
  | cons rc tl ih =>
    intro A h
    simp only [List.foldl_cons]
    exact ih _ (keysNodup_setFile _ _ _ h)

theorem lookupF_isSome_of_mem (l : List (FsPath × Content)) (q : FsPath) (c : Content)
    (h : (q, c) ∈ l) : ∃ c2, lookupF q l = some c2 := by
  induction l with
  | nil => simp at h
  | cons hd tl ih =>
    obtain ⟨p, d⟩ := hd
    by_cases hp : p = q
    · subst hp
      exact ⟨d, by simp [lookupF]⟩
    · simp only [lookupF, if_neg hp]
      rcases List.mem_cons.mp h with h | h
      · cases h
        exact absurd rfl hp
      · exact ih h

theorem lookupF_foldl_setFile_of_not_key (dst : FsPath) (L : List (FsPath × Content)) :
    ∀ (A : List (FsPath × Content)) (q : FsPath), (∀ rc ∈ L, dst ++ rc.1 ≠ q) →
    lookupF q (L.foldl (fun acc rc => setFile acc (dst ++ rc.1) rc.2) A) = lookupF q A := by
  induction L with
  | nil => exact fun A q _ => rfl
  | cons rc tl ih =>
    intro A q h
    simp only [List.foldl_cons]
    rw [ih _ _ (fun x hx => h x (List.mem_cons_of_mem _ hx))]
    exact lookupF_setFile_ne A (dst ++ rc.1) q rc.2
      (fun hc => h rc (List.mem_cons_self _ _) hc.symm)

theorem lookupF_foldl_setFile_of_key_notin (dst : FsPath) (L : List (FsPath × Content))
    (A : List (FsPath × Content)) (rel : FsPath) (h : rel ∉ L.map Prod.fst) :
    lookupF (dst ++ rel) (L.foldl (fun acc rc => setFile acc (dst ++ rc.1) rc.2) A)
      = lookupF (dst ++ rel) A := by
  apply lookupF_foldl_setFile_of_not_key
  intro rc hrc hc
  have h2 : rc.1 = rel := List.append_cancel_left hc
  exact h (h2 ▸ List.mem_map.mpr ⟨rc, hrc, rfl⟩)

theorem lookupF_foldl_setFile_of_mem (dst : FsPath) (L : List (FsPath × Content)) :
    ∀ (A : List (FsPath × Content)) (rel : FsPath) (c : Content),
    (L.map Prod.fst).Nodup → (rel, c) ∈ L →
    lookupF (dst ++ rel) (L.foldl (fun acc rc => setFile acc (dst ++ rc.1) rc.2) A) = some c := by
  induction L with
  | nil =>
    intro A rel c _ hmem
    simp at hmem
  | cons rc tl ih =>
    intro A rel c hnd hmem
    obtain ⟨r0, c0⟩ := rc
    simp only [List.map_cons, List.nodup_cons] at hnd
    simp only [List.foldl_cons]
    rcases List.mem_cons.mp hmem with h | h
    · cases h
      rw [lookupF_foldl_setFile_of_key_notin dst tl _ rel hnd.1]
      exact lookupF_setFile_self A (dst ++ rel) c
    · exact ih _ rel c hnd.2 h

end DbCli

namespace DbCli

theorem copytree_files_eq (g : FS) (src dst : FsPath) :
    (copytree g src dst).files
      = (filesUnder g src).foldl (fun acc rc => setFile acc (dst ++ rc.1) rc.2) g.files := rfl

theorem keysNodup_filesUnder (g : FS) (src : FsPath) (h : keysNodup g.files) :
    ((filesUnder g src).map Prod.fst).Nodup := by
  unfold keysNodup at h
  have hgen : ∀ (l : List (FsPath × Content)), (l.map Prod.fst).Nodup →
      ((filesUnder (FS.mk l []) src).map Prod.fst).Nodup := by
    intro l
    induction l with
    | nil => intro _; simp [filesUnder]
    | cons hd tl ih =>
      intro hnd
      obtain ⟨q, c⟩ := hd
      simp only [List.map_cons, List.nodup_cons] at hnd
      show ((((q, c) :: tl).filterMap _).map Prod.fst).Nodup
      rw [List.filterMap_cons]
      cases hs : stripInit src q with
      | none =>
        simp only [hs]
        exact ih hnd.2
      | some rel =>
        by_cases hre : rel.isEmpty = true
        · simp only [hs, hre, if_true]
          exact ih hnd.2
        · simp only [hs, hre, Bool.false_eq_true, if_false]
          simp only [List.map_cons, List.nodup_cons]
          refine ⟨?_, ih hnd.2⟩
          intro hmem
          obtain ⟨rc, hrc, hfst⟩ := List.mem_map.mp hmem
          have h2 := mem_filesUnder_elim (FS.mk tl []) src rc hrc
          have hq : q = src ++ rel := stripInit_eq_some src q rel hs
          apply hnd.1
          refine List.mem_map.mpr ⟨(src ++ rc.1, rc.2), h2.1, ?_⟩
          simp [hfst, hq]
  exact hgen g.files h

end DbCli

namespace DbCli

theorem copytree_lookup_under (g : FS) (src dst rel : FsPath)
    (hkeys : keysNodup g.files) (hbase : ∀ t, lookupF (dst ++ t) g.files = none) :
    lookupF (dst ++ rel) (copytree g src dst).files =
      (if rel.isEmpty then none else lookupF (src ++ rel) g.files) := by
  rw [copytree_files_eq]
  by_cases hre : rel.isEmpty = true
  · rw [if_pos hre]
    have hnil : rel = [] := by simpa [List.isEmpty_iff] using hre
    subst hnil
    rw [lookupF_foldl_setFile_of_not_key]
    · exact hbase []
    · intro rc hrc hc
      have h2 := mem_filesUnder_elim g src rc hrc
      have : rc.1 = [] := List.append_cancel_left hc
      exact h2.2 this
  · rw [if_neg hre]
    have hne : rel ≠ [] := by simpa [List.isEmpty_iff] using hre
    cases hsrc : lookupF (src ++ rel) g.files with
    | some c =>
      exact lookupF_foldl_setFile_of_mem dst (filesUnder g src) g.files rel c
        (keysNodup_filesUnder g src hkeys)
        (mem_filesUnder_of_lookup g src rel c hne hsrc)
    | none =>
      rw [lookupF_foldl_setFile_of_key_notin]
      · exact hbase rel
      · intro hmem
        obtain ⟨rc, hrc, hfst⟩ := List.mem_map.mp hmem
        have h2 := mem_filesUnder_elim g src rc hrc
        obtain ⟨c2, hc2⟩ := lookupF_isSome_of_mem g.files (src ++ rc.1) rc.2 h2.1
        rw [hfst] at hc2
        rw [hc2] at hsrc
        cases hsrc

end DbCli

namespace DbCli

theorem beginsWith_trans [DecidableEq α] (a b c : List α)
    (h1 : beginsWith a b = true) (h2 : beginsWith b c = true) : beginsWith a c = true := by
  obtain ⟨s, rfl⟩ := (beginsWith_iff_append _ _).mp h1
  obtain ⟨t, rfl⟩ := (beginsWith_iff_append _ _).mp h2
  rw [List.append_assoc]
  exact beginsWith_self_append a (s ++ t)

theorem not_under_of_incomp (src dst t : FsPath) (h : Incomp src dst) :
    beginsWith dst (src ++ t) = false := by
  by_contra hc
  rw [Bool.not_eq_false] at hc
  rcases beginsWith_comparable (src ++ t) src dst (beginsWith_self_append src t) hc with hh | hh
  · rw [h.1] at hh
    cases hh
  · rw [h.2] at hh
    cases hh

theorem expectedItem_of_absent (fs : FS) (src : FsPath) (item : String) (rel : FsPath)
    (h : pathExists fs (src ++ [item]) = false) : expectedItem fs src item rel = none := by
  have hdir : isDir fs (src ++ [item]) = false := by
    unfold pathExists at h
    exact (Bool.or_eq_false_iff.mp h).2
  unfold expectedItem
  rw [hdir, h]
  simp

theorem destVal_eq_some_iff (fs : FS) (src : FsPath) (done : List String) (q : FsPath)
    (c : Content) :
    destVal fs src done q = some c ↔
      ∃ item rest, q = item :: rest ∧ item ∈ done ∧ expectedItem fs src item rest = some c := by
  cases q with
  | nil => simp [destVal]
  | cons n rest =>
    simp only [destVal]
    by_cases hn : n ∈ done
    · rw [if_pos hn]
      constructor
      · intro h
        exact ⟨n, rest, rfl, hn, h⟩
      · rintro ⟨item, r2, heq, _hmem, hv⟩
        cases heq
        exact hv
    · rw [if_neg hn]
      constructor
      · intro h
        cases h
      · rintro ⟨item, r2, heq, hmem, _hv⟩
        cases heq
        exact absurd hmem hn

theorem append_rules_to_file_files_ne (fs : FS) (p q : FsPath) (r : Content) (h : p ≠ q) :
    lookupF q (append_dbcli_rules_to_file fs p r).files = lookupF q fs.files := by
  unfold append_dbcli_rules_to_file
  by_cases hre : r.isEmpty = true
  · rw [if_pos hre]
  · rw [if_neg hre]
    cases hl : lookupF p fs.files with
    | some e =>
      simp only [hl]
      by_cases hm : containsSub marker e = true
      · rw [if_pos hm]
      · rw [if_neg hm]
        exact lookupF_setFile_ne _ p q _ (fun hc => h hc.symm)
    | none =>
      simp only [hl]
      rw [if_neg (by simp)]
      exact lookupF_setFile_ne _ p q _ (fun hc => h hc.symm)

theorem foldl_append_rules_files_outside (rules : Content) (L : List FsPath) :
    ∀ (g : FS) (q : FsPath), (∀ p ∈ L, p ≠ q) →
    lookupF q (L.foldl (fun acc p => append_dbcli_rules_to_file acc p rules) g).files
      = lookupF q g.files := by
  induction L with
  | nil => exact fun g q _ => rfl
  | cons p tl ih =>
    intro g q h
    simp only [List.foldl_cons]
    rw [ih _ _ (fun x hx => h x (List.mem_cons_of_mem _ hx))]
    exact append_rules_to_file_files_ne g p q rules (h p (List.mem_cons_self _ _))

theorem append_rules_files_outside (fs : FS) (cwd src : FsPath) (q : FsPath)
    (h : ∀ rf ∈ rule_files cwd, rf ≠ q) :
    lookupF q (append_dbcli_rules fs cwd src false).files = lookupF q fs.files := by
  unfold append_dbcli_rules
  by_cases hre : (get_dbcli_rules_block fs src).isEmpty = true
  · rw [if_pos hre]
  · rw [if_neg hre]
    simp only [Bool.false_eq_true, if_false]
    exact foldl_append_rules_files_outside _ _ _ _ h

end DbCli

namespace DbCli

theorem copy_prep_inv (fs : FS) (src dst : FsPath) (done : List String) (it : String) (g : FS)
    (hinc : Incomp src dst) (hdone : it ∉ done)
    (hinv : CopyInv fs src dst done g) :
    CopyInv fs src dst done (if pathExists g (dst ++ [it]) = true then rmtree g (dst ++ [it]) else g)
    ∧ (∀ t, lookupF ((dst ++ [it]) ++ t)
        (if pathExists g (dst ++ [it]) = true then rmtree g (dst ++ [it]) else g).files = none) := by
  obtain ⟨hK, hF, hC, hD⟩ := hinv
  have hbase : ∀ (g2 : FS), CopyInv fs src dst done g2 →
      ∀ t, lookupF ((dst ++ [it]) ++ t) g2.files = none := by
    intro g2 h2 t
    rw [List.append_assoc]
    rw [h2.2.2.1 ([it] ++ t)]
    simp [destVal, hdone]
  by_cases hex2 : pathExists g (dst ++ [it]) = true
  · rw [if_pos hex2]
    have hrm : CopyInv fs src dst done (rmtree g (dst ++ [it])) := by
      refine ⟨keysNodup_filter _ _ hK, ?_, ?_, ?_⟩
      · intro q hq
        rw [rmtree_files_outside]
        · exact hF q hq
        · by_contra hc
          rw [Bool.not_eq_false] at hc
          have h2 := beginsWith_of_append dst [it] q hc
          rw [hq] at h2
          cases h2
      · intro rel
        by_cases hu : beginsWith (dst ++ [it]) (dst ++ rel) = true
        · rw [rmtree_files_under _ _ _ hu]
          rw [beginsWith_append_same] at hu
          cases rel with
          | nil => simp [beginsWith] at hu
          | cons n r =>
            have hn : it = n := by
              by_contra hne
              rw [show beginsWith [it] (n :: r) = false from by simp [beginsWith, hne]] at hu
              cases hu
            subst hn
            simp [destVal, hdone]
        · rw [rmtree_files_outside _ _ _ (by rwa [Bool.not_eq_true] at hu)]
          exact hC rel
      · intro d hd
        rw [rmtree_dirs_outside]
        · exact hD d hd
        · by_contra hc
          rw [Bool.not_eq_false] at hc
          have h1 := beginsWith_of_append dst [it] d hc
          rcases beginsWith_comparable d src dst hd h1 with hh | hh
          · rw [hinc.1] at hh
            cases hh
          · rw [hinc.2] at hh
            cases hh
    exact ⟨hrm, hbase _ hrm⟩
  · rw [if_neg hex2]
    exact ⟨⟨hK, hF, hC, hD⟩, hbase g ⟨hK, hF, hC, hD⟩⟩

theorem copySkillItem_inv (fs : FS) (src dst : FsPath) (done : List String)
    (it : String) (g : FS)
    (hinc : Incomp src dst) (hdone : it ∉ done)
    (hinv : CopyInv fs src dst done g) :
    CopyInv fs src dst (done ++ [it]) (copySkillItem src dst g it) := by
  obtain ⟨hK, hF, hC, hD⟩ := hinv
  have hout : ∀ t, beginsWith dst (src ++ t) = false :=
    fun t => not_under_of_incomp src dst t hinc
  have hsrcEx : pathExists g (src ++ [it]) = pathExists fs (src ++ [it]) := by
    unfold pathExists isFile isDir
    rw [hF _ (hout [it]), hD _ (beginsWith_self_append src [it])]
  have hsrcDir : isDir g (src ++ [it]) = isDir fs (src ++ [it]) := by
    unfold isDir
    rw [hD _ (beginsWith_self_append src [it])]
  have hdstp : ∀ rel : FsPath, dst ++ (it :: rel) = (dst ++ [it]) ++ rel := by
    intro rel
    rw [List.append_assoc]
    rfl
  have hnotit : ∀ (n : String) (r : FsPath), n ≠ it →
      beginsWith (dst ++ [it]) (dst ++ n :: r) = false := by
    intro n r hne
    rw [beginsWith_append_same]
    simp [beginsWith, Ne.symm hne]
  have hdstself : beginsWith (dst ++ [it]) dst = false := by
    by_contra hc
    rw [Bool.not_eq_false] at hc
    have h2 := beginsWith_length_le _ _ hc
    simp at h2
  have hsub : ∀ d, beginsWith src d = true → beginsWith (dst ++ [it]) d = false := by
    intro d hd
    by_contra hc
    rw [Bool.not_eq_false] at hc
    have h1 := beginsWith_of_append dst [it] d hc
    rcases beginsWith_comparable d src dst hd h1 with hh | hh
    · rw [hinc.1] at hh
      cases hh
    · rw [hinc.2] at hh
      cases hh
  simp only [copySkillItem]
  by_cases hex : pathExists fs (src ++ [it]) = true
  · rw [hsrcEx, hex]
    simp only [if_true]
    by_cases hdir : isDir fs (src ++ [it]) = true
    · -- directory item: clear the destination subtree, then copy the tree
      rw [hsrcDir, hdir]
      simp only [if_true]
      obtain ⟨hprep, hbase⟩ := copy_prep_inv fs src dst done it g hinc hdone ⟨hK, hF, hC, hD⟩
      obtain ⟨pK, pF, pC, pD⟩ := hprep
      refine ⟨?_, ?_, ?_, ?_⟩
      · rw [show (copytree _ (src ++ [it]) (dst ++ [it])).files = _ from copytree_files_eq _ _ _]
        exact keysNodup_foldl_setFile _ _ _ pK
      · intro q hq
        rw [copytree_files_outside]
        · exact pF q hq
        · by_contra hc
          rw [Bool.not_eq_false] at hc
          have h2 := beginsWith_of_append dst [it] q hc
          rw [hq] at h2
          cases h2
      · intro rel
        cases rel with
        | nil =>
          rw [List.append_nil, copytree_files_outside _ _ _ _ hdstself]
          have h0 := pC []
          rw [List.append_nil] at h0
          rw [h0]
          rfl
        | cons n r =>
          by_cases hni : n = it
          · subst hni
            rw [hdstp r, copytree_lookup_under _ _ _ _ pK hbase]
            have hmemn : n ∈ done ++ [n] := by simp
            simp only [destVal, if_pos hmemn]
            unfold expectedItem
            rw [hdir]
            simp only [if_true]
            by_cases hre : r.isEmpty = true
            · rw [if_pos hre, if_pos hre]
            · rw [if_neg hre, if_neg hre]
              have hq2 : beginsWith dst (src ++ [n] ++ r) = false := by
                rw [List.append_assoc]
                exact hout ([n] ++ r)
              exact pF _ hq2
          · rw [copytree_files_outside _ _ _ _ (hnotit n r hni), pC (n :: r)]
            simp only [destVal, List.mem_append, List.mem_singleton]
            by_cases hn : n ∈ done
            · simp [hn]
            · simp [hn, hni]
      · intro d hd
        rw [copytree_dirs_outside _ _ _ _ (hsub d hd)]
        exact pD d hd
    · -- plain file item: single overwrite copy
      rw [hsrcDir]
      have hdirf : isDir fs (src ++ [it]) = false := by rwa [Bool.not_eq_true] at hdir
      rw [hdirf]
      simp only [Bool.false_eq_true, if_false]
      have hsf : isFile fs (src ++ [it]) = true := by
        unfold pathExists at hex
        cases hfi : isFile fs (src ++ [it]) with
        | false =>
          rw [hfi, hdirf] at hex
          simp at hex
        | true => rfl
      obtain ⟨c, hc⟩ : ∃ c, lookupF (src ++ [it]) fs.files = some c := by
        unfold isFile at hsf
        cases hl : lookupF (src ++ [it]) fs.files with
        | none =>
          rw [hl] at hsf
          simp at hsf
        | some c2 => exact ⟨c2, rfl⟩
      unfold copy2
      rw [hF _ (hout [it]), hc]
      refine ⟨keysNodup_setFile _ _ _ hK, ?_, ?_, hD⟩
      · intro q hq
        have hne : q ≠ dst ++ [it] := by
          intro hqe
          rw [hqe, beginsWith_self_append] at hq
          cases hq
        exact (lookupF_setFile_ne g.files (dst ++ [it]) q c hne).trans (hF q hq)
      · intro rel
        cases rel with
        | nil =>
          rw [List.append_nil]
          have hne : dst ≠ dst ++ [it] := by
            intro hc2
            have h2 : dst.length = (dst ++ [it]).length := by rw [← hc2]
            simp at h2
          rw [lookupF_setFile_ne _ _ _ _ hne]
          have h0 := hC []
          rw [List.append_nil] at h0
          rw [h0]
          rfl
        | cons n r =>
          by_cases hni : n = it
          · subst hni
            cases r with
            | nil =>
              rw [lookupF_setFile_self]
              have hmemn : n ∈ done ++ [n] := by simp
              simp only [destVal, if_pos hmemn]
              unfold expectedItem
              rw [hdirf]
              simp only [Bool.false_eq_true, if_false, hex, List.isEmpty_nil, Bool.and_true,
                if_true]
              exact hc.symm
            | cons x xs =>
              have hne : dst ++ (n :: x :: xs) ≠ dst ++ [n] := by
                intro hc2
                have h2 := List.append_cancel_left hc2
                simp at h2
              rw [lookupF_setFile_ne _ _ _ _ hne, hC (n :: x :: xs)]
              have hmemn : n ∈ done ++ [n] := by simp
              simp only [destVal, if_pos hmemn, if_neg hdone]
              unfold expectedItem
              rw [hdirf]
              simp [hex]
          · have hne : dst ++ (n :: r) ≠ dst ++ [it] := by
              intro hc2
              have h2 := List.append_cancel_left hc2
              have : n = it := by
                cases h2
                rfl
              exact hni this
            rw [lookupF_setFile_ne _ _ _ _ hne, hC (n :: r)]
            simp only [destVal, List.mem_append, List.mem_singleton]
            by_cases hn : n ∈ done
            · simp [hn]
            · simp [hn, hni]
  · -- absent item: the loop body does nothing
    have hexf : pathExists fs (src ++ [it]) = false := by rwa [Bool.not_eq_true] at hex
    rw [hsrcEx, hexf]
    simp only [Bool.false_eq_true, if_false]
    refine ⟨hK, hF, ?_, hD⟩
    intro rel
    rw [hC rel]
    cases rel with
    | nil => rfl
    | cons n r =>
      simp only [destVal, List.mem_append, List.mem_singleton]
      by_cases hn : n ∈ done
      · simp [hn]
      · by_cases hni : n = it
        · subst hni
          simp [hn, expectedItem_of_absent fs src n r hexf]
        · simp [hn, hni]

end DbCli

namespace DbCli

theorem foldl_copySkillItem_inv (fs : FS) (src dst : FsPath) (hinc : Incomp src dst)
    (items : List String) :
    ∀ (done : List String) (g : FS), items.Nodup → (∀ x ∈ items, x ∉ done) →
    CopyInv fs src dst done g →
    CopyInv fs src dst (done ++ items) (items.foldl (copySkillItem src dst) g) := by
  induction items with
  | nil =>
    intro done g _ _ h
    simpa using h
  | cons it tl ih =>
    intro done g hnd hdis h
    simp only [List.foldl_cons]
    have h2 := copySkillItem_inv fs src dst done it g hinc
      (hdis it (List.mem_cons_self _ _)) h
    have h3 := ih (done ++ [it]) _ (List.nodup_cons.mp hnd).2
      (fun x hx hc => by
        rcases List.mem_append.mp hc with hcc | hcc
        · exact hdis x (List.mem_cons_of_mem _ hx) hcc
        · rcases List.mem_singleton.mp hcc with rfl
          exact (List.nodup_cons.mp hnd).1 hx) h2
    rw [List.append_assoc] at h3
    simpa using h3

/-- C2, part of the claim: what the `for attempt in range(3)` retry loop of
`rmtree_force` amounts to. -/
theorem rmtree_force_spec (fs : FS) (p : FsPath) (failures : Nat) :
    (failures ≤ 2 → rmtree_force fs p failures = Except.ok (rmtree fs p)) ∧
    (2 < failures → rmtree_force fs p failures = Except.error ()) := by
  constructor
  · intro h
    unfold rmtree_force
    rw [if_pos h]
  · intro h
    unfold rmtree_force
    rw [if_neg (by omega)]

end DbCli

namespace DbCli

theorem destVal_nil_done (fs : FS) (src : FsPath) (rel : FsPath) :
    destVal fs src [] rel = none := by
  cases rel <;> simp [destVal]

theorem lookup_under_none_of_not_exists (fs : FS) (p : FsPath) (hwf : WF fs)
    (hex : pathExists fs p = false) (rel : FsPath) :
    lookupF (p ++ rel) fs.files = none := by
  cases rel with
  | nil =>
    rw [List.append_nil]
    unfold pathExists isFile at hex
    cases hl : lookupF p fs.files with
    | none => rfl
    | some c =>
      rw [hl] at hex
      simp at hex
  | cons n r =>
    cases hl : lookupF (p ++ n :: r) fs.files with
    | none => rfl
    | some c =>
      exfalso
      have hmem := lookupF_mem _ _ _ hl
      have hk := hwf.2 _ hmem p.length (by simp)
      rw [List.take_left] at hk
      unfold pathExists isDir at hex
      rw [hk] at hex
      simp at hex

theorem claude_force_base_inv (fs : FS) (dbcliDir skillsDir src : FsPath)
    (hwf : WF fs)
    (hincomp : Incomp src skillsDir)
    (hsdd : beginsWith src dbcliDir = false)
    (hlen : dbcliDir.length < skillsDir.length) :
    CopyInv fs src skillsDir []
      (mkdirParents (if pathExists (mkdirParents fs dbcliDir) skillsDir = true
          then rmtree (mkdirParents fs dbcliDir) skillsDir
          else mkdirParents fs dbcliDir) skillsDir) := by
  have hnotinits1 : ∀ d, beginsWith src d = true → ¬ d ∈ initsOf dbcliDir := by
    intro d hd hmem
    rw [mem_initsOf_iff] at hmem
    have := beginsWith_trans src d dbcliDir hd hmem
    rw [hsdd] at this
    cases this
  have hnotinits2 : ∀ d, beginsWith src d = true → ¬ d ∈ initsOf skillsDir := by
    intro d hd hmem
    rw [mem_initsOf_iff] at hmem
    have := beginsWith_trans src d skillsDir hd hmem
    rw [hincomp.1] at this
    cases this
  have hsknotin : ¬ skillsDir ∈ initsOf dbcliDir := by
    intro hmem
    rw [mem_initsOf_iff] at hmem
    have := beginsWith_length_le _ _ hmem
    omega
  have hskout : ∀ d, beginsWith src d = true → beginsWith skillsDir d = false := by
    intro d hd
    by_contra hc
    rw [Bool.not_eq_false] at hc
    rcases beginsWith_comparable d src skillsDir hd hc with hh | hh
    · rw [hincomp.1] at hh
      cases hh
    · rw [hincomp.2] at hh
      cases hh
  by_cases hrm : pathExists (mkdirParents fs dbcliDir) skillsDir = true
  · rw [if_pos hrm]
    refine ⟨?_, ?_, ?_, ?_⟩
    · show keysNodup ((rmtree (mkdirParents fs dbcliDir) skillsDir).files)
      exact keysNodup_filter _ _ hwf.1
    · intro q hq
      show lookupF q (rmtree (mkdirParents fs dbcliDir) skillsDir).files = _
      rw [rmtree_files_outside _ _ _ hq]
      rfl
    · intro rel
      show lookupF (skillsDir ++ rel) (rmtree (mkdirParents fs dbcliDir) skillsDir).files = _
      rw [rmtree_files_under _ _ _ (beginsWith_self_append _ _), destVal_nil_done]
    · intro d hd
      exact (mkdirParents_dirs_outside _ _ _ (hnotinits2 d hd)).trans
        ((rmtree_dirs_outside _ _ _ (hskout d hd)).trans
          (mkdirParents_dirs_outside _ _ _ (hnotinits1 d hd)))
  · rw [if_neg hrm]
    have hex : pathExists fs skillsDir = false := by
      rw [Bool.not_eq_true] at hrm
      unfold pathExists isFile isDir at hrm ⊢
      rwa [mkdirParents_dirs_outside _ _ _ hsknotin] at hrm
    refine ⟨?_, ?_, ?_, ?_⟩
    · exact hwf.1
    · intro q _
      rfl
    · intro rel
      show lookupF (skillsDir ++ rel) fs.files = _
      rw [lookup_under_none_of_not_exists fs skillsDir hwf hex rel, destVal_nil_done]
    · intro d hd
      exact (mkdirParents_dirs_outside _ _ _ (hnotinits2 d hd)).trans
        (mkdirParents_dirs_outside _ _ _ (hnotinits1 d hd))

end DbCli

namespace DbCli

theorem deploy_claude_force_lookup (fs : FS) (claudeDir cwd src : FsPath) (confirmYes : Bool)
    (hwf : WF fs)
    (h1 : beginsWith src (claudeDir ++ ["skills", "dbcli"]) = false)
    (h2 : beginsWith (claudeDir ++ ["skills", "dbcli"]) src = false)
    (h3 : ∀ rf ∈ rule_files cwd,
      beginsWith (claudeDir ++ ["skills", "dbcli", "skills"]) rf = false) (q : FsPath) :
    lookupF ((claudeDir ++ ["skills", "dbcli", "skills"]) ++ q)
        ((deploy_claude_skills fs claudeDir cwd src true confirmYes).1).files
      = destVal fs src skill_items q := by
  have hsd : (claudeDir ++ ["skills", "dbcli"]) ++ ["skills"]
      = claudeDir ++ ["skills", "dbcli", "skills"] := by
    rw [List.append_assoc]
    rfl
  have hdd : beginsWith (claudeDir ++ ["skills", "dbcli"])
      (claudeDir ++ ["skills", "dbcli", "skills"]) = true := by
    rw [← hsd]
    exact beginsWith_self_append _ _
  have hincomp : Incomp src (claudeDir ++ ["skills", "dbcli", "skills"]) := by
    constructor
    · by_contra hc
      rw [Bool.not_eq_false] at hc
      rcases beginsWith_comparable _ src (claudeDir ++ ["skills", "dbcli"]) hc hdd with hh | hh
      · rw [h1] at hh
        cases hh
      · rw [h2] at hh
        cases hh
    · by_contra hc
      rw [Bool.not_eq_false] at hc
      rw [← hsd] at hc
      have h4 := beginsWith_of_append _ _ _ hc
      rw [h2] at h4
      cases h4
  have hlen : (claudeDir ++ ["skills", "dbcli"]).length
      < (claudeDir ++ ["skills", "dbcli", "skills"]).length := by
    simp
  simp only [deploy_claude_skills, Bool.not_true, Bool.and_false, Bool.false_and,
    Bool.false_eq_true, if_false, Bool.true_and, hsd]
  rw [append_rules_files_outside]
  · have hbase := claude_force_base_inv fs (claudeDir ++ ["skills", "dbcli"])
      (claudeDir ++ ["skills", "dbcli", "skills"]) src hwf hincomp h1 hlen
    have hfold := foldl_copySkillItem_inv fs src (claudeDir ++ ["skills", "dbcli", "skills"])
      hincomp skill_items [] _ (by decide) (by simp) hbase
    have h5 := hfold.2.2.1 q
    rw [List.nil_append] at h5
    exact h5
  · intro rf hrf he
    have h4 := h3 rf hrf
    rw [he, beginsWith_self_append] at h4
    cases h4

/-- C2: the force-redeploy contract.  First, `rmtree_force` performs the
recursive removal when one of its three attempts succeeds (at most 2 leading
transient `PermissionError`s) and re-raises after exhausting the retries.
Second, after a forced Claude deployment the file at any path `q` below the
destination skills subtree is exactly what the current source subtree
prescribes (`destVal`/`expectedItem`, a function of the source state only):
the pre-existing destination subtree is removed first and repopulated.
Hence deploying twice with `force` where a file was removed from the source
between the runs leaves the destination holding only files of the second
source state — the third conjunct states directly that nothing outside the
current source-prescribed set survives at the destination. -/
theorem force_redeploy_exact (fs : FS) (claudeDir cwd src : FsPath) (confirmYes : Bool)
    (hwf : WF fs)
    (h1 : beginsWith src (claudeDir ++ ["skills", "dbcli"]) = false)
    (h2 : beginsWith (claudeDir ++ ["skills", "dbcli"]) src = false)
    (h3 : ∀ rf ∈ rule_files cwd,
      beginsWith (claudeDir ++ ["skills", "dbcli", "skills"]) rf = false) :
    (∀ (fs2 : FS) (p : FsPath) (failures : Nat),
      (failures ≤ 2 → rmtree_force fs2 p failures = Except.ok (rmtree fs2 p)) ∧
      (2 < failures → rmtree_force fs2 p failures = Except.error ())) ∧
    (∀ q c,
      lookupF ((claudeDir ++ ["skills", "dbcli", "skills"]) ++ q)
          ((deploy_claude_skills fs claudeDir cwd src true confirmYes).1).files = some c ↔
        ∃ item rest, q = item :: rest ∧ item ∈ skill_items ∧
          expectedItem fs src item rest = some c) ∧
    (∀ q, (¬ ∃ item rest, q = item :: rest ∧ item ∈ skill_items ∧
        (expectedItem fs src item rest).isSome = true) →
      lookupF ((claudeDir ++ ["skills", "dbcli", "skills"]) ++ q)
          ((deploy_claude_skills fs claudeDir cwd src true confirmYes).1).files = none) := by
  refine ⟨fun fs2 p failures => rmtree_force_spec fs2 p failures, ?_, ?_⟩
  · intro q c
    rw [deploy_claude_force_lookup fs claudeDir cwd src confirmYes hwf h1 h2 h3 q]
    exact destVal_eq_some_iff fs src skill_items q c
  · intro q hq
    rw [deploy_claude_force_lookup fs claudeDir cwd src confirmYes hwf h1 h2 h3 q]
    cases hv : destVal fs src skill_items q with
    | none => rfl
    | some c =>
      exfalso
      obtain ⟨item, rest, hqe, hmem, he⟩ := (destVal_eq_some_iff fs src skill_items q c).mp hv
      exact hq ⟨item, rest, hqe, hmem, by rw [he]; rfl⟩

end DbCli

namespace DbCli

theorem beginsWith_refl [DecidableEq α] (a : List α) : beginsWith a a = true := by
  have h := beginsWith_self_append a []
  rwa [List.append_nil] at h

theorem copySkillItem_files_outside (src dst : FsPath) (g : FS) (it : String) (q : FsPath)
    (h : beginsWith dst q = false) :
    lookupF q (copySkillItem src dst g it).files = lookupF q g.files := by
  have hno : beginsWith (dst ++ [it]) q = false := by
    by_contra hc
    rw [Bool.not_eq_false] at hc
    have h2 := beginsWith_of_append dst [it] q hc
    rw [h] at h2
    cases h2
  have hne : q ≠ dst ++ [it] := by
    intro hqe
    rw [hqe] at hno
    simp [beginsWith_refl] at hno
  simp only [copySkillItem]
  split_ifs with h1 h2 h3
  · rw [copytree_files_outside _ _ _ _ hno, rmtree_files_outside _ _ _ hno]
  · rw [copytree_files_outside _ _ _ _ hno]
  · exact copy2_files_outside _ _ _ _ hne
  · rfl

theorem copySkillItem_dirs_outside (src dst : FsPath) (g : FS) (it : String) (d : FsPath)
    (h : beginsWith dst d = false) :
    memPath d (copySkillItem src dst g it).dirs = memPath d g.dirs := by
  have hno : beginsWith (dst ++ [it]) d = false := by
    by_contra hc
    rw [Bool.not_eq_false] at hc
    have h2 := beginsWith_of_append dst [it] d hc
    rw [h] at h2
    cases h2
  simp only [copySkillItem]
  split_ifs with h1 h2 h3
  · rw [copytree_dirs_outside _ _ _ _ hno, rmtree_dirs_outside _ _ _ hno]
  · rw [copytree_dirs_outside _ _ _ _ hno]
  · rw [copy2_dirs]
  · rfl

theorem foldl_copySkillItem_files_outside (src dst : FsPath) (items : List String) :
    ∀ (g : FS) (q : FsPath), beginsWith dst q = false →
    lookupF q (items.foldl (copySkillItem src dst) g).files = lookupF q g.files := by
  induction items with
  | nil => exact fun g q _ => rfl
  | cons it tl ih =>
    intro g q h
    simp only [List.foldl_cons]
    rw [ih _ _ h]
    exact copySkillItem_files_outside src dst g it q h

theorem foldl_copySkillItem_dirs_outside (src dst : FsPath) (items : List String) :
    ∀ (g : FS) (d : FsPath), beginsWith dst d = false →
    memPath d (items.foldl (copySkillItem src dst) g).dirs = memPath d g.dirs := by
  induction items with
  | nil => exact fun g d _ => rfl
  | cons it tl ih =>
    intro g d h
    simp only [List.foldl_cons]
    rw [ih _ _ h]
    exact copySkillItem_dirs_outside src dst g it d h

theorem codex_user_scope_files_outside (fs : FS) (home src : FsPath) (force : Bool) (q : FsPath)
    (h : beginsWith (home ++ [".codex", "skills", "dbcli"]) q = false) :
    lookupF q (codex_user_scope fs home src force).1.files = lookupF q fs.files := by
  have hsk : beginsWith ((home ++ [".codex", "skills", "dbcli"]) ++ ["skills"]) q = false := by
    by_contra hc
    rw [Bool.not_eq_false] at hc
    have h2 := beginsWith_of_append _ _ _ hc
    rw [h] at h2
    cases h2
  simp only [codex_user_scope]
  split_ifs with h1 h2 h3
  · rw [foldl_copySkillItem_files_outside _ _ _ _ _ hsk]
    exact rmtree_files_outside _ _ _ h
  · exact rmtree_files_outside _ _ _ h
  · rw [foldl_copySkillItem_files_outside _ _ _ _ _ hsk]
    rfl
  · rfl

theorem codex_user_scope_dirs_outside (fs : FS) (home src : FsPath) (force : Bool) (d : FsPath)
    (h : beginsWith (home ++ [".codex", "skills", "dbcli"]) d = false)
    (h2 : ¬ d ∈ initsOf ((home ++ [".codex", "skills", "dbcli"]) ++ ["skills"])) :
    memPath d (codex_user_scope fs home src force).1.dirs = memPath d fs.dirs := by
  have hsk : beginsWith ((home ++ [".codex", "skills", "dbcli"]) ++ ["skills"]) d = false := by
    by_contra hc
    rw [Bool.not_eq_false] at hc
    have h3 := beginsWith_of_append _ _ _ hc
    rw [h] at h3
    cases h3
  have hinit1 : ¬ d ∈ initsOf (home ++ [".codex", "skills", "dbcli"]) := by
    intro hmem
    apply h2
    rw [mem_initsOf_iff] at hmem ⊢
    exact beginsWith_trans _ _ _ hmem (beginsWith_self_append _ _)
  simp only [codex_user_scope]
  split_ifs with hc1 hc2 hc3
  · rw [foldl_copySkillItem_dirs_outside _ _ _ _ _ hsk,
      mkdirParents_dirs_outside _ _ _ h2, mkdirParents_dirs_outside _ _ _ hinit1]
    exact rmtree_dirs_outside _ _ _ h
  · exact rmtree_dirs_outside _ _ _ h
  · rw [foldl_copySkillItem_dirs_outside _ _ _ _ _ hsk,
      mkdirParents_dirs_outside _ _ _ h2, mkdirParents_dirs_outside _ _ _ hinit1]
  · rfl

theorem codex_user_scope_pathExists (fs : FS) (home src : FsPath) (force : Bool) (p : FsPath)
    (h : beginsWith (home ++ [".codex", "skills", "dbcli"]) p = false)
    (h2 : ¬ p ∈ initsOf ((home ++ [".codex", "skills", "dbcli"]) ++ ["skills"])) :
    pathExists (codex_user_scope fs home src force).1 p = pathExists fs p := by
  unfold pathExists isFile isDir
  rw [codex_user_scope_files_outside fs home src force p h,
    codex_user_scope_dirs_outside fs home src force p h h2]

theorem codex_user_scope_deployed (fs : FS) (home src : FsPath) (force : Bool)
    (h : pathExists fs (home ++ [".codex", "skills", "dbcli"]) = false ∨ force = true) :
    (codex_user_scope fs home src force).2 = CodexUser.userDeployed := by
  rcases h with h | h
  · simp [codex_user_scope, h]
  · simp [codex_user_scope, h]

theorem codex_user_scope_skip (fs : FS) (home src : FsPath)
    (hex : pathExists fs (home ++ [".codex", "skills", "dbcli"]) = true) :
    codex_user_scope fs home src false = (fs, CodexUser.userSkippedExisting) := by
  simp [codex_user_scope, hex]

theorem deploy_codex_user_outcome (fs : FS) (home cwd src : FsPath) (force globalOnly : Bool) :
    (deploy_codex_skills fs home cwd src force globalOnly).2.1
      = (codex_user_scope fs home src force).2 := by
  simp only [deploy_codex_skills]
  split_ifs <;> rfl

end DbCli

namespace DbCli

/-- C8: the Codex target contract.  The user-global scope is handled first
(its outcome depends only on the pre-state and `force`); when restricted to
global-only the repo scope is not touched at all; the repo scope is deployed
only when the `.git` repository marker is present; and repo-scope deployment
is skipped — reported as a skip outcome, never a failure — both when no
marker exists and when a non-forced repeat run finds the repo destination
already populated (in which case nothing beyond the user scope is written).
The separation hypotheses say the repo paths do not overlap the user-global
destination, as holds for any real home/workspace pair. -/
theorem codex_target_contract (fs : FS) (home cwd src : FsPath) (force globalOnly : Bool) :
    ((pathExists fs (home ++ [".codex", "skills", "dbcli"]) = false ∨ force = true) →
      (deploy_codex_skills fs home cwd src force globalOnly).2.1 = CodexUser.userDeployed) ∧
    ((pathExists fs (home ++ [".codex", "skills", "dbcli"]) = true ∧ force = false) →
      (deploy_codex_skills fs home cwd src force globalOnly).2.1
        = CodexUser.userSkippedExisting) ∧
    (globalOnly = true →
      (deploy_codex_skills fs home cwd src force globalOnly).2.2 = CodexRepo.repoGlobalOnly ∧
      ∀ q, beginsWith (home ++ [".codex", "skills", "dbcli"]) q = false →
        lookupF q (deploy_codex_skills fs home cwd src force globalOnly).1.files
          = lookupF q fs.files) ∧
    (globalOnly = false →
      beginsWith (home ++ [".codex", "skills", "dbcli"]) (cwd ++ [".git"]) = false →
      ¬ (cwd ++ [".git"]) ∈ initsOf ((home ++ [".codex", "skills", "dbcli"]) ++ ["skills"]) →
      pathExists fs (cwd ++ [".git"]) = false →
      (deploy_codex_skills fs home cwd src force globalOnly).2.2 = CodexRepo.repoNoMarker ∧
      ∀ q, beginsWith (home ++ [".codex", "skills", "dbcli"]) q = false →
        ¬ q ∈ rule_files cwd →
        lookupF q (deploy_codex_skills fs home cwd src force globalOnly).1.files
          = lookupF q fs.files) ∧
    (globalOnly = false → force = false →
      beginsWith (home ++ [".codex", "skills", "dbcli"]) (cwd ++ [".git"]) = false →
      ¬ (cwd ++ [".git"]) ∈ initsOf ((home ++ [".codex", "skills", "dbcli"]) ++ ["skills"]) →
      pathExists fs (cwd ++ [".git"]) = true →
      beginsWith (home ++ [".codex", "skills", "dbcli"])
        (cwd ++ [".codex", "skills", "dbcli"]) = false →
      ¬ (cwd ++ [".codex", "skills", "dbcli"])
        ∈ initsOf ((home ++ [".codex", "skills", "dbcli"]) ++ ["skills"]) →
      pathExists fs (cwd ++ [".codex", "skills", "dbcli"]) = true →
      (deploy_codex_skills fs home cwd src force globalOnly).2.2
        = CodexRepo.repoSkippedExisting ∧
      ∀ q, beginsWith (home ++ [".codex", "skills", "dbcli"]) q = false →
        lookupF q (deploy_codex_skills fs home cwd src force globalOnly).1.files
          = lookupF q fs.files) ∧
    (globalOnly = false →
      beginsWith (home ++ [".codex", "skills", "dbcli"]) (cwd ++ [".git"]) = false →
      ¬ (cwd ++ [".git"]) ∈ initsOf ((home ++ [".codex", "skills", "dbcli"]) ++ ["skills"]) →
      pathExists fs (cwd ++ [".git"]) = true →
      beginsWith (home ++ [".codex", "skills", "dbcli"])
        (cwd ++ [".codex", "skills", "dbcli"]) = false →
      ¬ (cwd ++ [".codex", "skills", "dbcli"])
        ∈ initsOf ((home ++ [".codex", "skills", "dbcli"]) ++ ["skills"]) →
      (pathExists fs (cwd ++ [".codex", "skills", "dbcli"]) = false ∨ force = true) →
      (deploy_codex_skills fs home cwd src force globalOnly).2.2 = CodexRepo.repoDeployed) := by
  refine ⟨?_, ?_, ?_, ?_, ?_, ?_⟩
  · intro h
    rw [deploy_codex_user_outcome]
    exact codex_user_scope_deployed fs home src force h
  · rintro ⟨hex, rfl⟩
    rw [deploy_codex_user_outcome, codex_user_scope_skip fs home src hex]
  · intro hg
    constructor
    · simp [deploy_codex_skills, hg]
    · intro q hq
      simp only [deploy_codex_skills, hg, if_true]
      exact codex_user_scope_files_outside fs home src force q hq
  · intro hg hsep1 hsep2 hmark
    have hm2 : pathExists (codex_user_scope fs home src force).1 (cwd ++ [".git"]) = false := by
      rw [codex_user_scope_pathExists fs home src force _ hsep1 hsep2]
      exact hmark
    constructor
    · simp [deploy_codex_skills, hg, hm2]
    · intro q hq hrule
      simp only [deploy_codex_skills, hg, hm2, Bool.false_eq_true, if_false]
      rw [append_rules_files_outside]
      · exact codex_user_scope_files_outside fs home src force q hq
      · intro rf hrf heq
        exact hrule (heq ▸ hrf)
  · rintro hg rfl hsep1 hsep2 hmark hsep3 hsep4 hrepo
    have hm2 : pathExists (codex_user_scope fs home src false).1 (cwd ++ [".git"]) = true := by
      rw [codex_user_scope_pathExists fs home src false _ hsep1 hsep2]
      exact hmark
    have hr2 : pathExists (codex_user_scope fs home src false).1
        (cwd ++ [".codex", "skills", "dbcli"]) = true := by
      rw [codex_user_scope_pathExists fs home src false _ hsep3 hsep4]
      exact hrepo
    constructor
    · simp [deploy_codex_skills, hg, hm2, hr2]
    · intro q hq
      simp only [deploy_codex_skills, hg, hm2, hr2, Bool.not_false, Bool.and_true,
        Bool.false_eq_true, if_false, if_true]
      exact codex_user_scope_files_outside fs home src false q hq
  · intro hg hsep1 hsep2 hmark hsep3 hsep4 hrepo
    have hm2 : pathExists (codex_user_scope fs home src force).1 (cwd ++ [".git"]) = true := by
      rw [codex_user_scope_pathExists fs home src force _ hsep1 hsep2]
      exact hmark
    have hcond : (pathExists (codex_user_scope fs home src force).1
        (cwd ++ [".codex", "skills", "dbcli"]) && !force) = false := by
      rcases hrepo with h | h
      · rw [codex_user_scope_pathExists fs home src force _ hsep3 hsep4, h]
        simp
      · rw [h]
        simp
    simp [deploy_codex_skills, hg, hm2, hcond]

end DbCli

namespace DbCli

/-- Witness for C2 at a concrete state: the forced redeploy removes the stale
destination file (absent from the source) and installs the current source
files. -/
theorem force_redeploy_exact_witness :
    WF fsC2 ∧
    lookupF (["cd", "skills", "dbcli", "skills"] ++ ["stale.md"]) fsC2.files = some "s".data ∧
    lookupF ((["cd"] ++ ["skills", "dbcli", "skills"]) ++ ["stale.md"])
      ((deploy_claude_skills fsC2 ["cd"] [] ["src"] true false).1).files = none ∧
    lookupF ((["cd"] ++ ["skills", "dbcli", "skills"]) ++ ["README.md"])
      ((deploy_claude_skills fsC2 ["cd"] [] ["src"] true false).1).files = some "r".data := by
  have H := force_redeploy_exact fsC2 ["cd"] [] ["src"] false
    (by decide) (by decide) (by decide) (by decide)
  refine ⟨by decide, by decide, ?_, ?_⟩
  · apply H.2.2 ["stale.md"]
    rintro ⟨item, rest, heq, hmem, _hv⟩
    cases heq
    revert hmem
    decide
  · exact (H.2.1 ["README.md"] "r".data).mpr ⟨"README.md", [], rfl, by decide, by decide⟩

/-- Witness for C8 at a concrete state: the user scope deploys, the repo scope
is skipped (no marker) without touching the workspace. -/
theorem codex_target_contract_witness :
    (deploy_codex_skills fsCx ["h"] ["w"] ["s"] false false).2.1 = CodexUser.userDeployed ∧
    (deploy_codex_skills fsCx ["h"] ["w"] ["s"] false false).2.2 = CodexRepo.repoNoMarker ∧
    lookupF ["w", ".codex", "skills", "dbcli", "skills", "README.md"]
      (deploy_codex_skills fsCx ["h"] ["w"] ["s"] false false).1.files = none := by
  have H := codex_target_contract fsCx ["h"] ["w"] ["s"] false false
  refine ⟨H.1 (Or.inl (by decide)), (H.2.2.2.1 rfl (by decide) (by decide) (by decide)).1, ?_⟩
  have h2 := (H.2.2.2.1 rfl (by decide) (by decide) (by decide)).2
    ["w", ".codex", "skills", "dbcli", "skills", "README.md"] (by decide) (by decide)
  rw [h2]
  decide

end DbCli
